import Mathlib

/-!
# Verification of the `pysimd` SWAR packed-array core (`src/simd.py`)

This file gives a shallow embedding of the data model and operations of the
packed-array module: Python's arbitrary-precision integers become `Nat`
(nonnegative values, which is all the constructor admits) or `Int` where an
intermediate value of the source can be negative; Python `assert`/`raise`
failures become `Except Err` results; Python bit strings (`bin`, `zfill`,
slicing, `int(_, 2)`) become `List Bool` (most-significant bit first).

Every definition is translated from `src/simd.py`; the source line numbers
are given in the doc comments.
-/

deriving instance DecidableEq for Except

namespace Simd

/-- Error kinds raised by the source (Python `assert` / `raise` / builtin
errors), one constructor per distinct failure site. -/
inductive Err where
  /-- `A.__init__`: `assert data >= 0` fails. -/
  | negativeData
  /-- `A.__init__`: `assert data == data & s.mask_val` fails. -/
  | unclearedPadding
  /-- `A.from_const`: `assert val >= 0` fails. -/
  | negativeValue
  /-- `A._check_shape_compatibility`: `raise ValueError` on shape mismatch. -/
  | incompatibleShapes
  /-- Python `int('', 2)`: `ValueError: invalid literal`. -/
  | invalidLiteral
  /-- Python `x >> n` with `n < 0`: `ValueError: negative shift count`. -/
  | negativeShiftCount
deriving DecidableEq

/-- `mask(n)` (simd.py lines 16-22): `~(~0 << n)` on Python ints, whose value
is the integer with the low `n` bits set, i.e. `2^n - 1`. -/
def mask (n : Nat) : Nat := 2 ^ n - 1

/-- `mask_array(n, bi)` (simd.py lines 25-33):
`~(~0 << n*bi) // ~(~0 << bi)`, i.e. `(2^(n*bi) - 1) / (2^bi - 1)`
(floor division; every use has `bi ≥ 1`, so the division is exact). -/
def mask_array (n bi : Nat) : Nat := mask (n * bi) / mask bi

/-- Shape `S` (simd.py lines 36-50): lane count `len`, value width `bv`,
padding width `bp`.  The `__post_init__` asserts are recorded by
`S.valid` (the `len ≥ 0` assert is vacuous over `Nat`). -/
structure S where
  len : Nat
  bv : Nat
  bp : Nat
deriving DecidableEq

/-- The `S.__post_init__` asserts (simd.py lines 47-50): positive value
width and positive padding width (`len >= 0` holds for every `Nat`). -/
def S.valid (s : S) : Prop := 0 < s.bv ∧ 0 < s.bp

instance (s : S) : Decidable s.valid := by
  unfold S.valid; infer_instance

/-- `S.bi` (simd.py lines 52-54): bits per item. -/
def S.bi (s : S) : Nat := s.bp + s.bv

/-- `S.maxval` (simd.py lines 56-58): the source returns `mask(self.bi)`. -/
def S.maxval (s : S) : Nat := mask s.bi

/-- `S.mask` (simd.py lines 60-67): `mask(bi * len)`. -/
def S.mask (s : S) : Nat := Simd.mask (s.bi * s.len)

/-- `S.mask_array_val` (simd.py lines 69-77): one bit set per lane at lane
offset 0 ("array of 1"). -/
def S.mask_array_val (s : S) : Nat := mask_array s.len s.bi

/-- `S.mask_val` (simd.py lines 79-87): all value bits set in every lane
("array of MAXVAL"). -/
def S.mask_val (s : S) : Nat := s.mask_array_val * Simd.mask s.bv

/-- `S.mask_array_pad` (simd.py lines 89-97): one bit set per lane at lane
offset `bv` ("array of MAXVAL+1"). -/
def S.mask_array_pad (s : S) : Nat := mask_array s.len s.bi <<< s.bv

/-- `S.mask_pad` (simd.py lines 99-106): all padding bits set in every lane. -/
def S.mask_pad (s : S) : Nat := s.mask_array_pad * Simd.mask s.bp

/-- Packed array `A` (simd.py lines 109-148): a nonnegative backing integer
plus a shape.  A value of this structure corresponds to the fields after a
successful `A.__init__`; the constructor checks themselves are `A.new`. -/
structure A where
  data : Nat
  s : S
deriving DecidableEq

/-- The `A.__init__` invariant on stored fields: every padding bit of
`data` is zero (`data == data & s.mask_val`; `data ≥ 0` is implicit in
`Nat`). -/
def A.valid (a : A) : Prop := a.data &&& a.s.mask_val = a.data

instance (a : A) : Decidable a.valid := by
  unfold A.valid; infer_instance

/-- `A.__init__` (simd.py lines 144-148): takes a Python int (possibly
negative, hence `Int`), asserts `data >= 0`, then asserts
`data == data & s.mask_val`. -/
def A.new (data : Int) (s : S) : Except Err A :=
  if data < 0 then .error .negativeData
  else if data.toNat &&& s.mask_val = data.toNat then .ok ⟨data.toNat, s⟩
  else .error .unclearedPadding

/-- `A.from_const` (simd.py lines 150-154): `assert val >= 0`, then
`cls(s.mask_array_val * val, s)`. -/
def A.from_const (val : Int) (s : S) : Except Err A :=
  if val < 0 then .error .negativeValue
  else A.new ((s.mask_array_val : Int) * val) s

/-- Python `n & m` for an arbitrary int `n` and a nonnegative mask `m`
(two's complement on negative `n`: only the low bits of `n` below the
width of `m` matter, and `n % 2^(m+1)` has exactly those bits since
`m < 2^(m+1)`). -/
def pyand (n : Int) (m : Nat) : Nat :=
  if 0 ≤ n then n.toNat &&& m
  else ((n % ((2 : Int) ^ (m + 1))).toNat) &&& m

/-- Python `n >> k` for an arbitrary int `n` (floor division by `2^k`,
i.e. an arithmetic shift). -/
def pyshr (n : Int) (k : Nat) : Int :=
  if 0 ≤ n then ((n.toNat >>> k : Nat) : Int)
  else -((((((-n) - 1).toNat >>> k : Nat)) : Int) + 1)

/-- `A._get_binop_operand` (simd.py lines 197-203): an int operand is
broadcast via `from_const`; an array operand must have the identical
shape (else `_check_shape_compatibility` raises). -/
def A.binop_operand (a : A) (other : A ⊕ Int) : Except Err A :=
  match other with
  | .inr k => A.from_const k a.s
  | .inl b => if a.s = b.s then .ok b else .error .incompatibleShapes

/-- `A.__sub__` (simd.py lines 288-302): set a 1 in each lane's lowest
padding bit of `self.data`, subtract `other.data` (Python int
subtraction, possibly negative), clear the padding with `& mask_val`,
and run the result through the constructor. -/
def A.sub (a : A) (other : A ⊕ Int) : Except Err A := do
  let b ← a.binop_operand other
  let n1 : Nat := a.data ||| a.s.mask_array_pad
  let n : Int := (n1 : Int) - (b.data : Int)
  let n2 : Nat := pyand n a.s.mask_val
  A.new (n2 : Int) a.s

/-- `A.__neg__` (simd.py lines 416-423): `mask_array_pad - data`, with no
masking, run through the constructor. -/
def A.neg (a : A) : Except Err A :=
  A.new ((a.s.mask_array_pad : Int) - (a.data : Int)) a.s

/-- `A.__xor__` (simd.py lines 369-377). -/
def A.xor (a : A) (other : A ⊕ Int) : Except Err A := do
  let b ← a.binop_operand other
  A.new (((a.data ^^^ b.data : Nat)) : Int) a.s

/-- `A.__or__` (simd.py lines 356-364). -/
def A.or (a : A) (other : A ⊕ Int) : Except Err A := do
  let b ← a.binop_operand other
  A.new (((a.data ||| b.data : Nat)) : Int) a.s

/-- `A.is_true` (simd.py lines 425-437): `n |= mask_array_pad`;
`n -= mask_array_val`; `n >>= bv`; `n &= mask_array_val`. -/
def A.is_true (a : A) : Except Err A :=
  let n0 : Nat := a.data ||| a.s.mask_array_pad
  let n1 : Int := (n0 : Int) - (a.s.mask_array_val : Int)
  let n2 : Int := pyshr n1 a.s.bv
  let n3 : Nat := pyand n2 a.s.mask_array_val
  A.new (n3 : Int) a.s

/-- `A.is_false` (simd.py lines 439-445): `is_true().data ^ mask_array_val`. -/
def A.is_false (a : A) : Except Err A := do
  let t ← a.is_true
  A.new (((t.data ^^^ a.s.mask_array_val : Nat)) : Int) a.s

/-- `A.eq` (simd.py lines 447-452): `(self ^ other).is_false()`. -/
def A.eq (a : A) (other : A ⊕ Int) : Except Err A := do
  let b ← a.binop_operand other
  let x ← a.xor (Sum.inl b)
  x.is_false

/-- `A.ne` (simd.py lines 454-459): `(self ^ other).is_true()`. -/
def A.ne (a : A) (other : A ⊕ Int) : Except Err A := do
  let b ← a.binop_operand other
  let x ← a.xor (Sum.inl b)
  x.is_true

/-- `A.lt` (simd.py lines 461-471): `n = (self - other).data`;
`n >>= bv - 1`; `n &= mask_array_val`. -/
def A.lt (a : A) (other : A ⊕ Int) : Except Err A := do
  let b ← a.binop_operand other
  let d ← a.sub (Sum.inl b)
  let n : Nat := (d.data >>> (a.s.bv - 1)) &&& a.s.mask_array_val
  A.new (n : Int) a.s

/-- `A.gt` (simd.py lines 473-483): `n = (other - self).data`;
`n >>= bv - 1`; `n &= mask_array_val`. -/
def A.gt (a : A) (other : A ⊕ Int) : Except Err A := do
  let b ← a.binop_operand other
  let d ← b.sub (Sum.inl a)
  let n : Nat := (d.data >>> (a.s.bv - 1)) &&& a.s.mask_array_val
  A.new (n : Int) a.s

/-- `A.le` (simd.py lines 485-490): `self.lt(other) | self.eq(other)`. -/
def A.le (a : A) (other : A ⊕ Int) : Except Err A := do
  let l ← a.lt other
  let e ← a.eq other
  l.or (Sum.inl e)

/-- `A.ge` (simd.py lines 492-497): `self.gt(other) | self.eq(other)`. -/
def A.ge (a : A) (other : A ⊕ Int) : Except Err A := do
  let g ← a.gt other
  let e ← a.eq other
  g.or (Sum.inl e)

/-- `A.__len__` (simd.py lines 238-242): `self.s.len`. -/
def A.len (a : A) : Nat := a.s.len

/-- `A._get_item` (simd.py lines 205-209):
`self.data >> (i * self.s.bi) & mask(self.s.bi)`.  The index comes in as a
Python int; a negative shift count raises `ValueError`. -/
def A.get_item (a : A) (i : Int) : Except Err Nat :=
  if i * (a.s.bi : Int) < 0 then .error .negativeShiftCount
  else .ok ((a.data >>> (i * (a.s.bi : Int)).toNat) &&& mask a.s.bi)

/-- `A._get_padval` (simd.py lines 211-218): split an item into its
padding part and its value part. -/
def A.get_padval (a : A) (i : Int) : Except Err (Nat × Nat) := do
  let item ← a.get_item i
  let pad := item >>> a.s.bv
  let val := item &&& mask a.s.bv
  .ok (pad, val)

/-- `A.__getitem__` (simd.py lines 244-253): returns the value part of
`_get_padval(index)`; the source performs no bounds check (its own TODO
notes this). -/
def A.getitem (a : A) (i : Int) : Except Err Nat := do
  let pv ← a.get_padval i
  .ok pv.2

/-- The binary digits of `n`, least significant first (`[]` for `0`);
helper for Python's `bin`. -/
def bits_lsb (n : Nat) : List Bool :=
  if h : n = 0 then []
  else (n % 2 == 1) :: bits_lsb (n / 2)
termination_by n
decreasing_by exact Nat.div_lt_self (Nat.pos_of_ne_zero h) (by omega)

/-- Python `bin(n)[2:]` for `n ≥ 0` as a list of bits, most significant
first; `bin(0)[2:] = '0'` is the single bit `[false]`. -/
def bin_digits (n : Nat) : List Bool :=
  if n = 0 then [false] else (bits_lsb n).reverse

/-- Python `str.zfill(w)` on a bit string: pad with leading zeros to
length at least `w`. -/
def zfill (w : Nat) (l : List Bool) : List Bool :=
  List.replicate (w - l.length) false ++ l

/-- The numeric value of a most-significant-first bit string. -/
def val2 (l : List Bool) : Nat :=
  l.foldl (fun acc b => 2 * acc + (cond b 1 0)) 0

/-- Python `int(x, 2)` on a bit string: `ValueError` on the empty string,
otherwise its numeric value. -/
def int_base2 (l : List Bool) : Except Err Nat :=
  if l.isEmpty then .error .invalidLiteral else .ok (val2 l)

/-- Python list/str slicing `l[a : b]` (step 1) with Python's index
normalization: negative indices count from the end, then both ends are
clamped to `[0, len l]`. -/
def py_slice (l : List α) (a b : Int) : List α :=
  let L : Int := l.length
  let a2 : Int := if a < 0 then max (a + L) 0 else min a L
  let b2 : Int := if b < 0 then max (b + L) 0 else min b L
  (l.take b2.toNat).drop a2.toNat

/-- `A.from_iterable` (simd.py lines 156-165): convert each value to a bit
string, zero-fill each to `bi` bits, reverse (first item least
significant), join, parse with `int(bits, 2)` and run through the
constructor. -/
def A.from_iterable (xs : List Nat) (s : S) : Except Err A := do
  let vals := xs.map (fun x => zfill s.bi (bin_digits x))
  let bits := vals.reverse.flatten
  let n ← int_base2 bits
  A.new (n : Int) s

/-- `A._get_values_by_indices` (simd.py lines 220-230): format `data` as a
bit string of width `bi * len`, then slice out each requested lane's
value field and parse it. -/
def A.get_values_by_indices (a : A) (indices : List Nat) : Except Err (List Nat) :=
  let nbits := a.s.bi * a.s.len
  let bits := zfill nbits (bin_digits a.data)
  indices.mapM (fun (i : Nat) =>
    int_base2 (py_slice bits (-(((i : Int)) + 1) * (a.s.bi : Int) + (a.s.bp : Int))
      ((bits.length : Int) - ((i : Int)) * (a.s.bi : Int))))

/-- `A.__iter__` (simd.py lines 232-233): the lane values in ascending
lane order. -/
def A.iter (a : A) : Except Err (List Nat) :=
  a.get_values_by_indices (List.range a.s.len)

/-- Observation function used in specifications: the value field of lane
`i` of a backing integer `d` under shape `s` (the low `bv` bits of the
`bi`-bit field at offset `i * bi`). -/
def laneVal (s : S) (d : Nat) (i : Nat) : Nat :=
  d / 2 ^ (i * s.bi) % 2 ^ s.bv

/-- A packed integer written as a sum of per-lane fields: lane `i` holds
`f i`, at bit offset `i * bi`. -/
def lanesN (bi n : Nat) (f : Nat → Nat) : Nat :=
  ∑ i ∈ Finset.range n, f i * 2 ^ (i * bi)

/-! ## Basic bit-level toolkit -/

theorem testBit_mask (n i : Nat) : (mask n).testBit i = decide (i < n) := by
  simp [mask]

/-- Disjoint bitwise or is addition. -/
theorem lor_eq_add_of_and_eq_zero (a : Nat) :
    ∀ b, a &&& b = 0 → a ||| b = a + b := by
  induction a using Nat.strong_induction_on with
  | _ a ih =>
    intro b h
    rcases Nat.eq_zero_or_pos a with ha | ha
    · subst ha; simp
    · have hd : a / 2 &&& b / 2 = 0 := by
        rw [← Nat.and_div_two, h]
      have ih2 : a / 2 ||| b / 2 = a / 2 + b / 2 :=
        ih (a / 2) (Nat.div_lt_self ha (by omega)) (b / 2) hd
      have hmod : ¬(a % 2 = 1 ∧ b % 2 = 1) := by
        rintro ⟨h1, h2⟩
        have : (a &&& b) % 2 = 1 := Nat.and_mod_two_eq_one.mpr ⟨h1, h2⟩
        rw [h] at this
        omega
      have hiff := Nat.or_mod_two_eq_one (a := a) (b := b)
      have hor01 := Nat.mod_two_eq_zero_or_one (a ||| b)
      have hor2 : (a ||| b) % 2 = a % 2 + b % 2 := by
        rcases Nat.mod_two_eq_zero_or_one a with h1 | h1 <;>
          rcases Nat.mod_two_eq_zero_or_one b with h2 | h2
        · have hnot : ¬((a ||| b) % 2 = 1) := by
            rw [hiff]
            omega
          omega
        · have h1' : (a ||| b) % 2 = 1 := hiff.mpr (Or.inr h2)
          omega
        · have h1' : (a ||| b) % 2 = 1 := hiff.mpr (Or.inl h1)
          omega
        · exact absurd ⟨h1, h2⟩ hmod
      have hdiv : (a ||| b) / 2 = a / 2 + b / 2 := by
        rw [Nat.or_div_two, ih2]
      omega

theorem lanesN_zero (bi : Nat) (f : Nat → Nat) : lanesN bi 0 f = 0 := by
  simp [lanesN]

theorem lanesN_succ (bi n : Nat) (f : Nat → Nat) :
    lanesN bi (n + 1) f = lanesN bi n f + f n * 2 ^ (n * bi) := by
  simp [lanesN, Finset.sum_range_succ]

/-- Peel off the least-significant lane. -/
theorem lanesN_succ' (bi n : Nat) (f : Nat → Nat) :
    lanesN bi (n + 1) f = f 0 + 2 ^ bi * lanesN bi n (fun i => f (i + 1)) := by
  unfold lanesN
  rw [Finset.sum_range_succ']
  simp only [Nat.zero_mul, pow_zero, Nat.mul_one]
  rw [Nat.add_comm, Finset.mul_sum]
  congr 1
  apply Finset.sum_congr rfl
  intro i _
  rw [Nat.add_mul, Nat.one_mul, pow_add]
  ring

theorem lanesN_congr {bi n : Nat} {f g : Nat → Nat} (h : ∀ i < n, f i = g i) :
    lanesN bi n f = lanesN bi n g :=
  Finset.sum_congr rfl fun i hi => by rw [h i (Finset.mem_range.mp hi)]

theorem lanesN_lt {bi : Nat} :
    ∀ (n : Nat) (f : Nat → Nat), (∀ i, i < n → f i < 2 ^ bi) →
      lanesN bi n f < 2 ^ (n * bi) := by
  intro n
  induction n with
  | zero => intro f _; simp [lanesN]
  | succ m ihm =>
    intro f hf
    rw [lanesN_succ]
    have h1 : lanesN bi m f < 2 ^ (m * bi) := ihm f fun i hi => hf i (by omega)
    have h2 : f m + 1 ≤ 2 ^ bi := hf m (by omega)
    calc lanesN bi m f + f m * 2 ^ (m * bi)
        < (1 + f m) * 2 ^ (m * bi) := by
          rw [Nat.add_mul, Nat.one_mul]
          omega
      _ ≤ 2 ^ bi * 2 ^ (m * bi) := by
          apply Nat.mul_le_mul_right
          omega
      _ = 2 ^ ((m + 1) * bi) := by
          rw [← pow_add, Nat.add_mul, Nat.one_mul, Nat.add_comm]

/-- Base-`2^bi` digit extraction from a lane sum. -/
theorem lanesN_div_pow_mod {bi : Nat} :
    ∀ (j n : Nat) (f : Nat → Nat), (∀ i, i < n → f i < 2 ^ bi) → j < n →
      lanesN bi n f / 2 ^ (j * bi) % 2 ^ bi = f j := by
  intro j
  induction j with
  | zero =>
    intro n f hf hj
    obtain ⟨m, rfl⟩ : ∃ m, n = m + 1 := ⟨n - 1, by omega⟩
    rw [lanesN_succ']
    simp only [Nat.zero_mul, pow_zero, Nat.div_one]
    rw [Nat.add_mul_mod_self_left]
    exact Nat.mod_eq_of_lt (hf 0 (by omega))
  | succ j ihj =>
    intro n f hf hj
    obtain ⟨m, rfl⟩ : ∃ m, n = m + 1 := ⟨n - 1, by omega⟩
    rw [lanesN_succ']
    have h0 : f 0 < 2 ^ bi := hf 0 (by omega)
    have hsplit : 2 ^ ((j + 1) * bi) = 2 ^ bi * 2 ^ (j * bi) := by
      rw [← pow_add, Nat.add_mul, Nat.one_mul, Nat.add_comm]
    rw [hsplit, ← Nat.div_div_eq_div_mul, Nat.add_mul_div_left _ _ (Nat.pos_pow_of_pos bi (by omega)),
      Nat.div_eq_of_lt h0, Nat.zero_add]
    exact ihj m (fun i => f (i + 1)) (fun i hi => hf (i + 1) (by omega)) (by omega)

/-- Bit `k` of a lane sum is bit `k % bi` of digit `k / bi`. -/
theorem lanesN_testBit {bi n : Nat} (hbi : 0 < bi) (f : Nat → Nat)
    (hf : ∀ i, i < n → f i < 2 ^ bi) (k : Nat) :
    (lanesN bi n f).testBit k =
      if k < n * bi then (f (k / bi)).testBit (k % bi) else false := by
  split
  case isFalse hk =>
    apply Nat.testBit_lt_two_pow
    calc lanesN bi n f < 2 ^ (n * bi) := lanesN_lt n f hf
      _ ≤ 2 ^ k := Nat.pow_le_pow_right (by omega) (by omega)
  case isTrue hk =>
    have hq : k / bi < n := (Nat.div_lt_iff_lt_mul hbi).mpr hk
    have hr : k % bi < bi := Nat.mod_lt _ hbi
    have hdigit := lanesN_div_pow_mod (k / bi) n f hf hq
    have hk' : k / bi * bi + k % bi = k := by
      rw [Nat.mul_comm]
      exact Nat.div_add_mod k bi
    rw [← hdigit, Nat.testBit_mod_two_pow, ← Nat.shiftRight_eq_div_pow,
      Nat.testBit_shiftRight, hk']
    simp [hr]

/-! ## Shape-mask identities -/

theorem mask_pos {n : Nat} (hn : 0 < n) : 0 < mask n := by
  unfold mask
  have : (2 : Nat) ^ 1 ≤ 2 ^ n := Nat.pow_le_pow_right (by omega) hn
  omega

theorem S.bi_pos {s : S} (hs : s.valid) : 0 < s.bi := by
  obtain ⟨h1, h2⟩ := hs
  unfold S.bi
  omega

theorem S.bv_lt_bi {s : S} (hs : s.valid) : s.bv < s.bi := by
  obtain ⟨h1, h2⟩ := hs
  unfold S.bi
  omega

theorem two_pow_bv_le_bi {s : S} (hs : s.valid) : 2 ^ s.bv ≤ 2 ^ s.bi :=
  Nat.pow_le_pow_right (by omega) (Nat.le_of_lt (S.bv_lt_bi hs))

/-- `mask_array n bi` really is the lane sum of `1`s (the division in its
definition is exact). -/
theorem mask_array_eq_lanesN (n bi : Nat) (hbi : 0 < bi) :
    mask_array n bi = lanesN bi n (fun _ => 1) := by
  have key : ∀ m : Nat, lanesN bi m (fun _ => 1) * mask bi = mask (m * bi) := by
    intro m
    induction m with
    | zero => simp [lanesN_zero, mask]
    | succ m ihm =>
      rw [lanesN_succ, Nat.one_mul]
      have hsplit : (2 : Nat) ^ ((m + 1) * bi) = 2 ^ (m * bi) * 2 ^ bi := by
        rw [← pow_add, Nat.add_mul, Nat.one_mul]
      have hA : 1 ≤ (2 : Nat) ^ (m * bi) := Nat.one_le_two_pow
      have hB : 1 ≤ (2 : Nat) ^ bi := Nat.one_le_two_pow
      have hAB : 1 ≤ (2 : Nat) ^ (m * bi) * 2 ^ bi :=
        Nat.one_le_iff_ne_zero.mpr (by positivity)
      unfold mask at ihm ⊢
      rw [hsplit]
      zify [hA, hB, hAB] at ihm ⊢
      linear_combination ihm
  rw [mask_array, ← key n, Nat.mul_div_cancel _ (mask_pos hbi)]

theorem mask_array_val_eq_lanesN {s : S} (hs : s.valid) :
    s.mask_array_val = lanesN s.bi s.len (fun _ => 1) :=
  mask_array_eq_lanesN s.len s.bi (S.bi_pos hs)

theorem mask_val_eq_lanesN {s : S} (hs : s.valid) :
    s.mask_val = lanesN s.bi s.len (fun _ => Simd.mask s.bv) := by
  unfold S.mask_val
  rw [mask_array_val_eq_lanesN hs]
  unfold lanesN
  rw [Finset.sum_mul]
  apply Finset.sum_congr rfl
  intro i _
  ring

theorem mask_array_pad_eq_lanesN {s : S} (hs : s.valid) :
    s.mask_array_pad = lanesN s.bi s.len (fun _ => 2 ^ s.bv) := by
  unfold S.mask_array_pad
  rw [mask_array_eq_lanesN s.len s.bi (S.bi_pos hs), Nat.shiftLeft_eq]
  unfold lanesN
  rw [Finset.sum_mul]
  apply Finset.sum_congr rfl
  intro i _
  ring

/-! ## Lane extraction and the padding invariant -/

theorem laneVal_lt (s : S) (d i : Nat) : laneVal s d i < 2 ^ s.bv :=
  Nat.mod_lt _ (Nat.two_pow_pos s.bv)

/-- `laneVal` reads back the digits of a lane sum whose digits fit in the
value field. -/
theorem laneVal_lanesN {s : S} (hs : s.valid) (f : Nat → Nat)
    (hf : ∀ i, i < s.len → f i < 2 ^ s.bv) {j : Nat} (hj : j < s.len) :
    laneVal s (lanesN s.bi s.len f) j = f j := by
  have hfbi : ∀ i, i < s.len → f i < 2 ^ s.bi := fun i hi =>
    Nat.lt_of_lt_of_le (hf i hi) (two_pow_bv_le_bi hs)
  have hd := lanesN_div_pow_mod j s.len f hfbi hj
  unfold laneVal
  rw [← Nat.mod_mod_of_dvd _ (pow_dvd_pow 2 (Nat.le_of_lt (S.bv_lt_bi hs))), hd,
    Nat.mod_eq_of_lt (hf j hj)]

/-- Masking any integer with `mask_val` reads off exactly the value fields. -/
theorem and_mask_val_eq_lanesN {s : S} (hs : s.valid) (d : Nat) :
    d &&& s.mask_val = lanesN s.bi s.len (fun i => laneVal s d i) := by
  have hbi := S.bi_pos hs
  have hbvbi := S.bv_lt_bi hs
  apply Nat.eq_of_testBit_eq
  intro k
  rw [Nat.testBit_and, mask_val_eq_lanesN hs,
    lanesN_testBit hbi _ (fun i _ => Nat.lt_of_lt_of_le (by
      have := Nat.two_pow_pos s.bv
      unfold mask
      omega) (two_pow_bv_le_bi hs)),
    lanesN_testBit hbi _ (fun i _ => Nat.lt_of_lt_of_le (laneVal_lt s d i) (two_pow_bv_le_bi hs))]
  by_cases hk : k < s.len * s.bi
  · simp only [hk, if_true]
    rw [testBit_mask]
    by_cases hr : k % s.bi < s.bv
    · have hidx : k / s.bi * s.bi + k % s.bi = k := by
        rw [Nat.mul_comm]
        exact Nat.div_add_mod k s.bi
      unfold laneVal
      rw [Nat.testBit_mod_two_pow, ← Nat.shiftRight_eq_div_pow, Nat.testBit_shiftRight, hidx]
      simp [hr]
    · have h1 : (laneVal s d (k / s.bi)).testBit (k % s.bi) = false :=
        Nat.testBit_lt_two_pow (Nat.lt_of_lt_of_le (laneVal_lt s d _)
          (Nat.pow_le_pow_right (by omega) (by omega)))
      simp [hr, h1]
  · simp [hk]

/-- A valid packed integer is the lane sum of its lane values. -/
theorem valid_eq_lanesN {a : A} (hs : a.s.valid) (ha : a.valid) :
    a.data = lanesN a.s.bi a.s.len (fun i => laneVal a.s a.data i) := by
  conv_lhs => rw [← ha]
  exact and_mask_val_eq_lanesN hs a.data

/-- A lane sum whose digits fit in the value field satisfies the padding
invariant. -/
theorem lanesN_and_mask_val_self {s : S} (hs : s.valid) (f : Nat → Nat)
    (hf : ∀ i, i < s.len → f i < 2 ^ s.bv) :
    lanesN s.bi s.len f &&& s.mask_val = lanesN s.bi s.len f := by
  rw [and_mask_val_eq_lanesN hs]
  exact lanesN_congr fun i hi => laneVal_lanesN hs f hf hi

/-- A valid packed integer has no bits in the padding positions, so or-ing
in `mask_array_pad` is disjoint. -/
theorem valid_and_mask_array_pad {a : A} (hs : a.s.valid) (ha : a.valid) :
    a.data &&& a.s.mask_array_pad = 0 := by
  set s := a.s
  have hbi := S.bi_pos hs
  rw [valid_eq_lanesN hs ha]
  apply Nat.eq_of_testBit_eq
  intro k
  rw [Nat.testBit_and, mask_array_pad_eq_lanesN hs,
    lanesN_testBit hbi _ (fun i _ => Nat.lt_of_lt_of_le (laneVal_lt s a.data i) (two_pow_bv_le_bi hs)),
    lanesN_testBit hbi _ (fun i _ => Nat.lt_of_le_of_lt (Nat.le_refl _) (Nat.pow_lt_pow_right (by omega) (S.bv_lt_bi hs))),
    Nat.zero_testBit]
  by_cases hk : k < s.len * s.bi
  · simp only [hk, if_true]
    by_cases hr : k % s.bi < s.bv
    · have h2 : ((2 : Nat) ^ s.bv).testBit (k % s.bi) = false := by
        rw [Nat.testBit_two_pow]
        simp
        omega
      simp [h2]
    · have h1 : (laneVal s a.data (k / s.bi)).testBit (k % s.bi) = false :=
        Nat.testBit_lt_two_pow (Nat.lt_of_lt_of_le (laneVal_lt s a.data _)
          (Nat.pow_le_pow_right (by omega) (by omega)))
      simp [h1]
  · simp [hk]

/-- Shifting right by `k` and masking with `mask_array_val` collects bit
`q * bi + k` of the source into lane `q`. -/
theorem shr_and_mask_array_val {s : S} (hs : s.valid) (x k : Nat) :
    (x >>> k) &&& s.mask_array_val
      = lanesN s.bi s.len (fun q => cond (x.testBit (q * s.bi + k)) 1 0) := by
  have hbi := S.bi_pos hs
  have h2bi : (1 : Nat) < 2 ^ s.bi :=
    Nat.lt_of_lt_of_le (by omega) (Nat.pow_le_pow_right (by omega) hbi)
  apply Nat.eq_of_testBit_eq
  intro j
  rw [Nat.testBit_and, Nat.testBit_shiftRight, mask_array_val_eq_lanesN hs,
    lanesN_testBit hbi _ (fun i _ => h2bi),
    lanesN_testBit hbi _ (fun i _ =>
      Nat.lt_of_le_of_lt (by cases x.testBit (i * s.bi + k) <;> simp) h2bi)]
  by_cases hj : j < s.len * s.bi
  · simp only [hj, if_true]
    by_cases hr : j % s.bi = 0
    · have hjj : j / s.bi * s.bi = j := by
        have := Nat.div_add_mod j s.bi
        rw [Nat.mul_comm]
        omega
      rw [hr]
      have hone : (1 : Nat).testBit 0 = true := rfl
      rw [hone]
      cases hx : x.testBit (j / s.bi * s.bi + k)
      · have : x.testBit (k + j) = false := by
          rw [← hx]
          congr 1
          omega
        simp [this, hx]
      · have : x.testBit (k + j) = true := by
          rw [← hx]
          congr 1
          omega
        simp [this, hx]
    · have h1 : (1 : Nat).testBit (j % s.bi) = false := by
        apply Nat.testBit_lt_two_pow
        calc (1 : Nat) < 2 ^ 1 := by omega
          _ ≤ 2 ^ (j % s.bi) := Nat.pow_le_pow_right (by omega) (by omega)
      have h2 : (cond (x.testBit (j / s.bi * s.bi + k)) 1 0).testBit (j % s.bi) = false := by
        apply Nat.testBit_lt_two_pow
        calc cond (x.testBit (j / s.bi * s.bi + k)) 1 0 < 2 ^ 1 := by
              cases x.testBit (j / s.bi * s.bi + k) <;> simp
          _ ≤ 2 ^ (j % s.bi) := Nat.pow_le_pow_right (by omega) (by omega)
      simp [h1, h2]
  · simp [hj]

/-! ## Arithmetic on lane sums -/

theorem lanesN_add (bi n : Nat) (f g : Nat → Nat) :
    lanesN bi n (fun i => f i + g i) = lanesN bi n f + lanesN bi n g := by
  unfold lanesN
  rw [← Finset.sum_add_distrib]
  apply Finset.sum_congr rfl
  intro i _
  rw [Nat.add_mul]

theorem lanesN_le (bi n : Nat) (f g : Nat → Nat) (h : ∀ i, i < n → f i ≤ g i) :
    lanesN bi n f ≤ lanesN bi n g := by
  apply Finset.sum_le_sum
  intro i hi
  exact Nat.mul_le_mul_right _ (h i (Finset.mem_range.mp hi))

theorem lanesN_sub (bi n : Nat) (f g : Nat → Nat) (h : ∀ i, i < n → g i ≤ f i) :
    lanesN bi n (fun i => f i - g i) = lanesN bi n f - lanesN bi n g := by
  unfold lanesN
  rw [← Finset.sum_tsub_distrib _ (fun i hi =>
    Nat.mul_le_mul_right _ (h i (Finset.mem_range.mp hi)))]
  apply Finset.sum_congr rfl
  intro i _
  rw [Nat.sub_mul]

/-- `laneVal` on a lane sum with digits that may use padding bits: the
value field is the digit reduced mod `2^bv`. -/
theorem laneVal_lanesN_mod {s : S} (hs : s.valid) (f : Nat → Nat)
    (hf : ∀ i, i < s.len → f i < 2 ^ s.bi) {j : Nat} (hj : j < s.len) :
    laneVal s (lanesN s.bi s.len f) j = f j % 2 ^ s.bv := by
  have hd := lanesN_div_pow_mod j s.len f hf hj
  unfold laneVal
  rw [← Nat.mod_mod_of_dvd _ (pow_dvd_pow 2 (Nat.le_of_lt (S.bv_lt_bi hs))), hd]

/-! ## Constructor and Python-semantics helpers -/

theorem except_bind_ok {ε α β : Type} (x : α) (f : α → Except ε β) :
    (Except.ok x >>= f : Except ε β) = f x := rfl

theorem new_natCast (k : Nat) (s : S) :
    A.new (k : Int) s =
      if k &&& s.mask_val = k then .ok ⟨k, s⟩ else .error .unclearedPadding := by
  unfold A.new
  rw [if_neg (Int.not_lt.mpr (Int.natCast_nonneg k))]
  simp

theorem pyand_natCast (k m : Nat) : pyand (k : Int) m = k &&& m := by
  unfold pyand
  rw [if_pos (Int.natCast_nonneg k)]
  simp

theorem pyshr_natCast (k j : Nat) : pyshr (k : Int) j = ((k >>> j : Nat) : Int) := by
  unfold pyshr
  rw [if_pos (Int.natCast_nonneg k)]
  simp

/-! ## Behaviour of the operations on valid arrays -/

/-- The lane-wise value of `A.__sub__` on two valid arrays of the same
shape: each lane holds `(v1 + 2^bv - v2) % 2^bv`. -/
theorem sub_eq_ok {a b : A} (hs : a.s.valid) (hsh : a.s = b.s)
    (ha : a.valid) (hb : b.valid) :
    A.sub a (Sum.inl b) = Except.ok
      ⟨lanesN a.s.bi a.s.len
        (fun i => (2 ^ a.s.bv + laneVal a.s a.data i - laneVal a.s b.data i) % 2 ^ a.s.bv),
        a.s⟩ := by
  have hb2 : b.data = lanesN a.s.bi a.s.len (fun i => laneVal a.s b.data i) := by
    have hsb : b.s.valid := hsh ▸ hs
    have := valid_eq_lanesN hsb hb
    rw [← hsh] at this
    exact this
  have hpad0 := valid_and_mask_array_pad hs ha
  have h1 : a.data ||| a.s.mask_array_pad
      = lanesN a.s.bi a.s.len (fun i => laneVal a.s a.data i + 2 ^ a.s.bv) := by
    rw [lor_eq_add_of_and_eq_zero _ _ hpad0, mask_array_pad_eq_lanesN hs, lanesN_add]
    congr 1
    exact valid_eq_lanesN hs ha
  have hv2le : ∀ i, i < a.s.len →
      laneVal a.s b.data i ≤ laneVal a.s a.data i + 2 ^ a.s.bv := by
    intro i hi
    have := laneVal_lt a.s b.data i
    omega
  have hle : b.data ≤ a.data ||| a.s.mask_array_pad := by
    rw [h1]
    calc b.data = lanesN a.s.bi a.s.len (fun i => laneVal a.s b.data i) := hb2
      _ ≤ _ := lanesN_le _ _ _ _ hv2le
  have hcast : ((a.data ||| a.s.mask_array_pad : Nat) : Int) - (b.data : Int)
      = (((a.data ||| a.s.mask_array_pad) - b.data : Nat) : Int) := by
    rw [Nat.cast_sub hle]
  have hsub : (a.data ||| a.s.mask_array_pad) - b.data
      = lanesN a.s.bi a.s.len
          (fun i => laneVal a.s a.data i + 2 ^ a.s.bv - laneVal a.s b.data i) := by
    rw [h1, lanesN_sub a.s.bi a.s.len _ _ hv2le]
    congr 1
  have hdigbound : ∀ i, i < a.s.len →
      laneVal a.s a.data i + 2 ^ a.s.bv - laneVal a.s b.data i < 2 ^ a.s.bi := by
    intro i hi
    have h1' := laneVal_lt a.s a.data i
    have hbv1 : 2 ^ a.s.bv + 2 ^ a.s.bv ≤ 2 ^ a.s.bi := by
      have h2 : 2 ^ (a.s.bv + 1) ≤ 2 ^ a.s.bi := Nat.pow_le_pow_right (by omega) (by
        have := S.bv_lt_bi hs
        omega)
      rw [pow_succ] at h2
      omega
    omega
  have hb_ok : a.binop_operand (Sum.inl b) = Except.ok b := by
    simp [A.binop_operand, hsh]
  unfold A.sub
  rw [hb_ok, except_bind_ok]
  show A.new ((pyand (((a.data ||| a.s.mask_array_pad : Nat) : Int) - (b.data : Int))
    a.s.mask_val : Nat) : Int) a.s = _
  rw [hcast, pyand_natCast, hsub, and_mask_val_eq_lanesN hs,
    lanesN_congr (fun i hi => laneVal_lanesN_mod hs _ hdigbound hi)]
  rw [new_natCast,
    if_pos (lanesN_and_mask_val_self hs _ (fun i _ => Nat.mod_lt _ (Nat.two_pow_pos a.s.bv)))]
  congr 1
  congr 1
  apply lanesN_congr
  intro i hi
  congr 1
  omega

theorem lanesN_testBit_lane {bi n : Nat} (hbi : 0 < bi) (f : Nat → Nat)
    (hf : ∀ i, i < n → f i < 2 ^ bi) {q r : Nat} (hq : q < n) (hr : r < bi) :
    (lanesN bi n f).testBit (q * bi + r) = (f q).testBit r := by
  rw [lanesN_testBit hbi f hf]
  have e1 : (q + 1) * bi = q * bi + bi := by ring
  have e2 : (q + 1) * bi ≤ n * bi := Nat.mul_le_mul_right bi (by omega)
  have h1 : q * bi + r < n * bi := by omega
  have h2 : (q * bi + r) / bi = q := by
    rw [Nat.add_comm, Nat.add_mul_div_right _ _ hbi, Nat.div_eq_of_lt hr, Nat.zero_add]
  have h3 : (q * bi + r) % bi = r := by
    rw [Nat.add_comm, Nat.add_mul_mod_self_right, Nat.mod_eq_of_lt hr]
  simp [h1, h2, h3]

theorem lanesN_xor {bi n : Nat} (hbi : 0 < bi) (f g : Nat → Nat)
    (hf : ∀ i, i < n → f i < 2 ^ bi) (hg : ∀ i, i < n → g i < 2 ^ bi) :
    lanesN bi n f ^^^ lanesN bi n g = lanesN bi n (fun i => f i ^^^ g i) := by
  apply Nat.eq_of_testBit_eq
  intro k
  rw [Nat.testBit_xor, lanesN_testBit hbi f hf, lanesN_testBit hbi g hg,
    lanesN_testBit hbi _ (fun i hi => Nat.xor_lt_two_pow (hf i hi) (hg i hi))]
  by_cases hk : k < n * bi
  · simp [hk]
  · simp [hk]

theorem lanesN_lor {bi n : Nat} (hbi : 0 < bi) (f g : Nat → Nat)
    (hf : ∀ i, i < n → f i < 2 ^ bi) (hg : ∀ i, i < n → g i < 2 ^ bi) :
    lanesN bi n f ||| lanesN bi n g = lanesN bi n (fun i => f i ||| g i) := by
  apply Nat.eq_of_testBit_eq
  intro k
  rw [Nat.testBit_or, lanesN_testBit hbi f hf, lanesN_testBit hbi g hg,
    lanesN_testBit hbi _ (fun i hi => Nat.or_lt_two_pow (hf i hi) (hg i hi))]
  by_cases hk : k < n * bi
  · simp [hk]
  · simp [hk]

/-- The lane-wise value of `A.is_true` on a valid array: per lane, `1`
exactly when the lane value is nonzero. -/
theorem is_true_eq_ok {a : A} (hs : a.s.valid) (ha : a.valid) :
    A.is_true a = Except.ok
      ⟨lanesN a.s.bi a.s.len (fun i => if laneVal a.s a.data i = 0 then 0 else 1), a.s⟩ := by
  have hbi := S.bi_pos hs
  have hbv := hs.1
  have hpad0 := valid_and_mask_array_pad hs ha
  have h1 : a.data ||| a.s.mask_array_pad
      = lanesN a.s.bi a.s.len (fun i => laneVal a.s a.data i + 2 ^ a.s.bv) := by
    rw [lor_eq_add_of_and_eq_zero _ _ hpad0, mask_array_pad_eq_lanesN hs, lanesN_add]
    congr 1
    exact valid_eq_lanesN hs ha
  have hvle : ∀ i, i < a.s.len → 1 ≤ laneVal a.s a.data i + 2 ^ a.s.bv := by
    intro i hi
    have := Nat.two_pow_pos a.s.bv
    omega
  have hle : a.s.mask_array_val ≤ a.data ||| a.s.mask_array_pad := by
    rw [h1, mask_array_val_eq_lanesN hs]
    exact lanesN_le _ _ _ _ hvle
  have hcast : ((a.data ||| a.s.mask_array_pad : Nat) : Int) - (a.s.mask_array_val : Int)
      = (((a.data ||| a.s.mask_array_pad) - a.s.mask_array_val : Nat) : Int) := by
    rw [Nat.cast_sub hle]
  have hsub : (a.data ||| a.s.mask_array_pad) - a.s.mask_array_val
      = lanesN a.s.bi a.s.len (fun i => laneVal a.s a.data i + 2 ^ a.s.bv - 1) := by
    rw [h1, lanesN_sub a.s.bi a.s.len _ _ hvle]
    congr 1
    exact mask_array_val_eq_lanesN hs
  have hdig : ∀ i, i < a.s.len →
      laneVal a.s a.data i + 2 ^ a.s.bv - 1 < 2 ^ a.s.bi := by
    intro i hi
    have h1' := laneVal_lt a.s a.data i
    have hbv1 : 2 ^ a.s.bv + 2 ^ a.s.bv ≤ 2 ^ a.s.bi := by
      have h2 : 2 ^ (a.s.bv + 1) ≤ 2 ^ a.s.bi := Nat.pow_le_pow_right (by omega) (by
        have := S.bv_lt_bi hs
        omega)
      rw [pow_succ] at h2
      omega
    omega
  unfold A.is_true
  show A.new ((pyand (pyshr (((a.data ||| a.s.mask_array_pad : Nat) : Int)
      - (a.s.mask_array_val : Int)) a.s.bv) a.s.mask_array_val : Nat) : Int) a.s = _
  rw [hcast, pyshr_natCast, pyand_natCast, hsub, shr_and_mask_array_val hs]
  have hlane : ∀ q, q < a.s.len →
      (cond ((lanesN a.s.bi a.s.len
          (fun i => laneVal a.s a.data i + 2 ^ a.s.bv - 1)).testBit (q * a.s.bi + a.s.bv)) 1 0)
        = if laneVal a.s a.data q = 0 then 0 else 1 := by
    intro q hq
    rw [lanesN_testBit_lane hbi _ hdig hq (S.bv_lt_bi hs)]
    have hv := laneVal_lt a.s a.data q
    have hglt : laneVal a.s a.data q + 2 ^ a.s.bv - 1 < 2 ^ a.s.bv * 2 := by omega
    rw [Nat.testBit_to_div_mod]
    by_cases h0 : laneVal a.s a.data q = 0
    · rw [h0]
      have hd0 : (2 ^ a.s.bv - 1) / 2 ^ a.s.bv = 0 := Nat.div_eq_of_lt (by omega)
      simp [hd0]
    · have hge : 2 ^ a.s.bv ≤ laneVal a.s a.data q + 2 ^ a.s.bv - 1 := by omega
      have hd1 : (laneVal a.s a.data q + 2 ^ a.s.bv - 1) / 2 ^ a.s.bv = 1 := by
        apply Nat.div_eq_of_lt_le <;> omega
      simp [h0, hd1]
  rw [lanesN_congr hlane, new_natCast,
    if_pos (lanesN_and_mask_val_self hs _ (fun i hi => by
      have h2 : 1 < 2 ^ a.s.bv := Nat.one_lt_two_pow_iff.mpr (by omega)
      split <;> omega))]

theorem valid_eq_lanesN_of_eq {b : A} {s : S} (hs : s.valid) (hsh : s = b.s) (hb : b.valid) :
    b.data = lanesN s.bi s.len (fun i => laneVal s b.data i) := by
  subst hsh
  exact valid_eq_lanesN hs hb

/-- The lane-wise value of `A.is_false` on a valid array. -/
theorem is_false_eq_ok {a : A} (hs : a.s.valid) (ha : a.valid) :
    A.is_false a = Except.ok
      ⟨lanesN a.s.bi a.s.len (fun i => if laneVal a.s a.data i = 0 then 1 else 0), a.s⟩ := by
  have hbi := S.bi_pos hs
  have h2bv : 1 < 2 ^ a.s.bv := Nat.one_lt_two_pow_iff.mpr (by
    have := hs.1
    omega)
  have h2bi : 1 < 2 ^ a.s.bi := Nat.one_lt_two_pow_iff.mpr (by omega)
  unfold A.is_false
  rw [is_true_eq_ok hs ha, except_bind_ok]
  show A.new (((lanesN a.s.bi a.s.len (fun i => if laneVal a.s a.data i = 0 then 0 else 1)
      ^^^ a.s.mask_array_val : Nat)) : Int) a.s = _
  rw [mask_array_val_eq_lanesN hs,
    lanesN_xor hbi _ _ (fun i hi => by split <;> omega) (fun i hi => h2bi)]
  have hlane : ∀ i, i < a.s.len →
      ((if laneVal a.s a.data i = 0 then 0 else 1) ^^^ 1)
        = if laneVal a.s a.data i = 0 then 1 else 0 := by
    intro i hi
    split <;> rfl
  rw [lanesN_congr hlane, new_natCast,
    if_pos (lanesN_and_mask_val_self hs _ (fun i hi => by split <;> omega))]

/-- The lane-wise value of `A.__xor__` on two valid arrays of the same
shape. -/
theorem xor_eq_ok {a b : A} (hs : a.s.valid) (hsh : a.s = b.s)
    (ha : a.valid) (hb : b.valid) :
    A.xor a (Sum.inl b) = Except.ok
      ⟨lanesN a.s.bi a.s.len (fun i => laneVal a.s a.data i ^^^ laneVal a.s b.data i), a.s⟩ := by
  have hbi := S.bi_pos hs
  have hb_ok : a.binop_operand (Sum.inl b) = Except.ok b := by
    simp [A.binop_operand, hsh]
  unfold A.xor
  rw [hb_ok, except_bind_ok]
  show A.new ((a.data ^^^ b.data : Nat) : Int) a.s = _
  have hx : a.data ^^^ b.data
      = lanesN a.s.bi a.s.len (fun i => laneVal a.s a.data i ^^^ laneVal a.s b.data i) := by
    conv_lhs => rw [valid_eq_lanesN hs ha, valid_eq_lanesN_of_eq hs hsh hb]
    exact lanesN_xor hbi _ _
      (fun i hi => Nat.lt_of_lt_of_le (laneVal_lt a.s a.data i) (two_pow_bv_le_bi hs))
      (fun i hi => Nat.lt_of_lt_of_le (laneVal_lt a.s b.data i) (two_pow_bv_le_bi hs))
  rw [hx, new_natCast, if_pos (lanesN_and_mask_val_self hs _ (fun i hi =>
    Nat.xor_lt_two_pow (laneVal_lt a.s a.data i) (laneVal_lt a.s b.data i)))]

/-- The lane-wise value of `A.__or__` on two valid arrays of the same
shape. -/
theorem or_eq_ok {a b : A} (hs : a.s.valid) (hsh : a.s = b.s)
    (ha : a.valid) (hb : b.valid) :
    A.or a (Sum.inl b) = Except.ok
      ⟨lanesN a.s.bi a.s.len (fun i => laneVal a.s a.data i ||| laneVal a.s b.data i), a.s⟩ := by
  have hbi := S.bi_pos hs
  have hb_ok : a.binop_operand (Sum.inl b) = Except.ok b := by
    simp [A.binop_operand, hsh]
  unfold A.or
  rw [hb_ok, except_bind_ok]
  show A.new ((a.data ||| b.data : Nat) : Int) a.s = _
  have hx : a.data ||| b.data
      = lanesN a.s.bi a.s.len (fun i => laneVal a.s a.data i ||| laneVal a.s b.data i) := by
    conv_lhs => rw [valid_eq_lanesN hs ha, valid_eq_lanesN_of_eq hs hsh hb]
    exact lanesN_lor hbi _ _
      (fun i hi => Nat.lt_of_lt_of_le (laneVal_lt a.s a.data i) (two_pow_bv_le_bi hs))
      (fun i hi => Nat.lt_of_lt_of_le (laneVal_lt a.s b.data i) (two_pow_bv_le_bi hs))
  rw [hx, new_natCast, if_pos (lanesN_and_mask_val_self hs _ (fun i hi =>
    Nat.or_lt_two_pow (laneVal_lt a.s a.data i) (laneVal_lt a.s b.data i)))]

/-- The lane-wise value of `A.eq` on two valid arrays of the same shape. -/
theorem eq_eq_ok {a b : A} (hs : a.s.valid) (hsh : a.s = b.s)
    (ha : a.valid) (hb : b.valid) :
    A.eq a (Sum.inl b) = Except.ok
      ⟨lanesN a.s.bi a.s.len
        (fun i => if laneVal a.s a.data i = laneVal a.s b.data i then 1 else 0), a.s⟩ := by
  have hb_ok : a.binop_operand (Sum.inl b) = Except.ok b := by
    simp [A.binop_operand, hsh]
  have hxlt : ∀ i, i < a.s.len →
      laneVal a.s a.data i ^^^ laneVal a.s b.data i < 2 ^ a.s.bv := fun i hi =>
    Nat.xor_lt_two_pow (laneVal_lt a.s a.data i) (laneVal_lt a.s b.data i)
  unfold A.eq
  rw [hb_ok, except_bind_ok, xor_eq_ok hs hsh ha hb, except_bind_ok]
  rw [is_false_eq_ok (a := ⟨lanesN a.s.bi a.s.len
      (fun i => laneVal a.s a.data i ^^^ laneVal a.s b.data i), a.s⟩) hs
    (lanesN_and_mask_val_self hs _ hxlt)]
  congr 1
  congr 1
  apply lanesN_congr
  intro i hi
  rw [laneVal_lanesN hs _ hxlt hi]
  have hxy : (laneVal a.s a.data i ^^^ laneVal a.s b.data i) = 0
      ↔ laneVal a.s a.data i = laneVal a.s b.data i := Nat.xor_eq_zero
  simp only [hxy]

/-- Common tail of `A.lt`/`A.gt`: shift the subtraction result right by
`bv - 1`, mask to one flag bit per lane, and construct. -/
theorem shr_bv1_new_eq {s : S} (hs : s.valid) (w : Nat → Nat)
    (hw : ∀ i, i < s.len → w i < 2 ^ s.bv) :
    A.new (((lanesN s.bi s.len w >>> (s.bv - 1)) &&& s.mask_array_val : Nat) : Int) s
      = Except.ok ⟨lanesN s.bi s.len (fun i => if 2 ^ (s.bv - 1) ≤ w i then 1 else 0), s⟩ := by
  have hbi := S.bi_pos hs
  have hbv := hs.1
  have hrlt : s.bv - 1 < s.bi := by
    have := S.bv_lt_bi hs
    omega
  have hsplit : 2 ^ s.bv = 2 ^ (s.bv - 1) * 2 := by
    rw [← pow_succ]
    congr 1
    omega
  rw [shr_and_mask_array_val hs]
  have hlane : ∀ q, q < s.len →
      (cond ((lanesN s.bi s.len w).testBit (q * s.bi + (s.bv - 1))) 1 0)
        = if 2 ^ (s.bv - 1) ≤ w q then 1 else 0 := by
    intro q hq
    rw [lanesN_testBit_lane hbi _
      (fun i hi => Nat.lt_of_lt_of_le (hw i hi) (two_pow_bv_le_bi hs)) hq hrlt]
    have hwlt := hw q hq
    rw [Nat.testBit_to_div_mod]
    by_cases hge : 2 ^ (s.bv - 1) ≤ w q
    · have hd1 : w q / 2 ^ (s.bv - 1) = 1 := by
        apply Nat.div_eq_of_lt_le <;> omega
      simp [hge, hd1]
    · have hd0 : w q / 2 ^ (s.bv - 1) = 0 := Nat.div_eq_of_lt (by omega)
      simp [hge, hd0]
  rw [lanesN_congr hlane, new_natCast,
    if_pos (lanesN_and_mask_val_self hs _ (fun i hi => by
      have h2 : 1 < 2 ^ s.bv := Nat.one_lt_two_pow_iff.mpr (by omega)
      split <;> omega))]

/-- The lane-wise value of `A.lt` on two valid arrays of the same shape:
lane `i` holds the top value bit of `(v1 + 2^bv - v2) % 2^bv`. -/
theorem lt_eq_ok {a b : A} (hs : a.s.valid) (hsh : a.s = b.s)
    (ha : a.valid) (hb : b.valid) :
    A.lt a (Sum.inl b) = Except.ok
      ⟨lanesN a.s.bi a.s.len (fun i =>
          if 2 ^ (a.s.bv - 1) ≤
              (2 ^ a.s.bv + laneVal a.s a.data i - laneVal a.s b.data i) % 2 ^ a.s.bv
          then 1 else 0), a.s⟩ := by
  have hb_ok : a.binop_operand (Sum.inl b) = Except.ok b := by
    simp [A.binop_operand, hsh]
  unfold A.lt
  rw [hb_ok, except_bind_ok, sub_eq_ok hs hsh ha hb, except_bind_ok]
  exact shr_bv1_new_eq hs _ (fun i hi => Nat.mod_lt _ (Nat.two_pow_pos a.s.bv))

/-- The lane-wise value of `A.gt` on two valid arrays of the same shape:
`lt` with the operands swapped. -/
theorem gt_eq_ok {a b : A} (hs : a.s.valid) (hsh : a.s = b.s)
    (ha : a.valid) (hb : b.valid) :
    A.gt a (Sum.inl b) = Except.ok
      ⟨lanesN a.s.bi a.s.len (fun i =>
          if 2 ^ (a.s.bv - 1) ≤
              (2 ^ a.s.bv + laneVal a.s b.data i - laneVal a.s a.data i) % 2 ^ a.s.bv
          then 1 else 0), a.s⟩ := by
  have hb_ok : a.binop_operand (Sum.inl b) = Except.ok b := by
    simp [A.binop_operand, hsh]
  unfold A.gt
  rw [hb_ok, except_bind_ok, sub_eq_ok (hsh ▸ hs) hsh.symm hb ha, except_bind_ok]
  show A.new (((lanesN b.s.bi b.s.len
      (fun i => (2 ^ b.s.bv + laneVal b.s b.data i - laneVal b.s a.data i) % 2 ^ b.s.bv)
      >>> (a.s.bv - 1)) &&& a.s.mask_array_val : Nat) : Int) a.s = _
  rw [← hsh]
  exact shr_bv1_new_eq hs _ (fun i hi => Nat.mod_lt _ (Nat.two_pow_pos a.s.bv))

/-- The lane-wise value of `A.__neg__` on a valid array with no zero lane:
each lane holds `2^bv - v`. -/
theorem neg_eq_ok {a : A} (hs : a.s.valid) (ha : a.valid)
    (hnz : ∀ i, i < a.s.len → laneVal a.s a.data i ≠ 0) :
    A.neg a = Except.ok
      ⟨lanesN a.s.bi a.s.len (fun i => 2 ^ a.s.bv - laneVal a.s a.data i), a.s⟩ := by
  have hvle : ∀ i, i < a.s.len → laneVal a.s a.data i ≤ 2 ^ a.s.bv := by
    intro i hi
    exact Nat.le_of_lt (laneVal_lt a.s a.data i)
  have hle : a.data ≤ a.s.mask_array_pad := by
    calc a.data = lanesN a.s.bi a.s.len (fun i => laneVal a.s a.data i) := valid_eq_lanesN hs ha
      _ ≤ lanesN a.s.bi a.s.len (fun _ => 2 ^ a.s.bv) := lanesN_le _ _ _ _ hvle
      _ = a.s.mask_array_pad := (mask_array_pad_eq_lanesN hs).symm
  have hcast : ((a.s.mask_array_pad : Nat) : Int) - (a.data : Int)
      = ((a.s.mask_array_pad - a.data : Nat) : Int) := by
    rw [Nat.cast_sub hle]
  have hsub : a.s.mask_array_pad - a.data
      = lanesN a.s.bi a.s.len (fun i => 2 ^ a.s.bv - laneVal a.s a.data i) := by
    rw [lanesN_sub a.s.bi a.s.len _ _ hvle]
    congr 1
    · exact mask_array_pad_eq_lanesN hs
    · exact valid_eq_lanesN hs ha
  unfold A.neg
  rw [hcast, hsub, new_natCast, if_pos (lanesN_and_mask_val_self hs _ (fun i hi => by
    have h1 := laneVal_lt a.s a.data i
    have h2 := hnz i hi
    omega))]

theorem mask_lt_two_pow (n : Nat) : mask n < 2 ^ n := by
  unfold mask
  have := Nat.two_pow_pos n
  omega

theorem mask_array_pos {n bi : Nat} (hn : 0 < n) (hbi : 0 < bi) : 0 < mask_array n bi := by
  unfold mask_array
  rw [Nat.lt_iff_add_one_le, Nat.zero_add, Nat.one_le_div_iff (mask_pos hbi)]
  unfold mask
  have h1 : (2 : Nat) ^ bi ≤ 2 ^ (n * bi) :=
    Nat.pow_le_pow_right (by omega) (Nat.le_mul_of_pos_left bi hn)
  omega

/-- Evaluation of the `lt`/`gt` flag under the small-values restriction:
the top value bit of the mod-`2^bv` difference is the unsigned
less-than flag when both operands are below `2^(bv-1)`. -/
theorem lt_flag_eval {bv : Nat} (hbv : 0 < bv) {v1 v2 : Nat}
    (h1 : v1 < 2 ^ (bv - 1)) (h2 : v2 < 2 ^ (bv - 1)) :
    (if 2 ^ (bv - 1) ≤ (2 ^ bv + v1 - v2) % 2 ^ bv then 1 else 0)
      = if v1 < v2 then (1 : Nat) else 0 := by
  have hsplit : 2 ^ bv = 2 ^ (bv - 1) * 2 := by
    rw [← pow_succ]
    congr 1
    omega
  by_cases hlt : v1 < v2
  · have ht : (2 ^ bv + v1 - v2) % 2 ^ bv = 2 ^ bv + v1 - v2 :=
      Nat.mod_eq_of_lt (by omega)
    rw [ht, if_pos (by omega), if_pos hlt]
  · have heq : 2 ^ bv + v1 - v2 = (v1 - v2) + 1 * 2 ^ bv := by omega
    have ht : (2 ^ bv + v1 - v2) % 2 ^ bv = v1 - v2 := by
      rw [heq, Nat.add_mul_mod_self_right]
      exact Nat.mod_eq_of_lt (by omega)
    rw [ht, if_neg (by omega), if_neg hlt]

/-! ## Bit-string lemmas (for `from_iterable` and iteration) -/

theorem val2_foldl_acc (l : List Bool) :
    ∀ acc : Nat, l.foldl (fun acc b => 2 * acc + (cond b 1 0)) acc
      = acc * 2 ^ l.length + val2 l := by
  induction l with
  | nil => intro acc; simp [val2]
  | cons b t iht =>
    intro acc
    have hv : val2 (b :: t) = (cond b 1 0) * 2 ^ t.length + val2 t := by
      show List.foldl _ (2 * 0 + (cond b 1 0)) t = _
      rw [iht]
      ring
    show List.foldl _ (2 * acc + (cond b 1 0)) t = _
    rw [iht, hv, List.length_cons, pow_succ]
    ring

theorem val2_cons (b : Bool) (t : List Bool) :
    val2 (b :: t) = (cond b 1 0) * 2 ^ t.length + val2 t := by
  show List.foldl _ (2 * 0 + (cond b 1 0)) t = _
  rw [val2_foldl_acc]
  ring

theorem val2_append (l1 l2 : List Bool) :
    val2 (l1 ++ l2) = val2 l1 * 2 ^ l2.length + val2 l2 := by
  unfold val2
  rw [List.foldl_append, val2_foldl_acc]
  rfl

theorem val2_lt (l : List Bool) : val2 l < 2 ^ l.length := by
  induction l with
  | nil => simp [val2]
  | cons b t iht =>
    rw [val2_cons, List.length_cons, pow_succ]
    cases b <;> simp <;> omega

theorem val2_replicate_false (k : Nat) : val2 (List.replicate k false) = 0 := by
  induction k with
  | zero => rfl
  | succ m ihm =>
    rw [List.replicate_succ, val2_cons, ihm]
    simp

theorem val2_zfill (w : Nat) (l : List Bool) : val2 (zfill w l) = val2 l := by
  unfold zfill
  rw [val2_append, val2_replicate_false]
  simp

theorem zfill_length {w : Nat} {l : List Bool} (h : l.length ≤ w) :
    (zfill w l).length = w := by
  unfold zfill
  simp
  omega

theorem bits_lsb_length_le : ∀ (n w : Nat), n < 2 ^ w → (bits_lsb n).length ≤ w := by
  intro n
  induction n using Nat.strong_induction_on with
  | _ n ih =>
    intro w hw
    rcases Nat.eq_zero_or_pos n with h0 | h0
    · subst h0
      rw [bits_lsb]
      simp
    · rw [bits_lsb, dif_neg (by omega)]
      have hw1 : 0 < w := by
        rcases Nat.eq_zero_or_pos w with h | h
        · subst h; simp at hw; omega
        · exact h
      have hdiv : n / 2 < 2 ^ (w - 1) := by
        have h2 : 2 ^ w = 2 ^ (w - 1) * 2 := by
          rw [← pow_succ]
          congr 1
          omega
        omega
      have := ih (n / 2) (Nat.div_lt_self h0 (by omega)) (w - 1) hdiv
      simp
      omega

theorem val2_reverse_bits_lsb : ∀ n : Nat, val2 (bits_lsb n).reverse = n := by
  intro n
  induction n using Nat.strong_induction_on with
  | _ n ih =>
    rcases Nat.eq_zero_or_pos n with h0 | h0
    · subst h0
      rw [bits_lsb]
      simp [val2]
    · rw [bits_lsb, dif_neg (by omega)]
      rw [List.reverse_cons, val2_append, ih (n / 2) (Nat.div_lt_self h0 (by omega))]
      have hb : val2 [n % 2 == 1] = n % 2 := by
        rcases Nat.mod_two_eq_zero_or_one n with h | h <;> rw [h] <;> rfl
      rw [hb]
      simp
      omega

theorem val2_bin_digits (n : Nat) : val2 (bin_digits n) = n := by
  unfold bin_digits
  split
  · subst ‹n = 0›
    rfl
  · exact val2_reverse_bits_lsb n

theorem bin_digits_length_le {w n : Nat} (hw : 0 < w) (hn : n < 2 ^ w) :
    (bin_digits n).length ≤ w := by
  unfold bin_digits
  split
  · simpa using hw
  · rw [List.length_reverse]
    exact bits_lsb_length_le n w hn

/-- A width-`bi` chunk of `from_iterable`: length exactly `bi`, value the
encoded element. -/
theorem chunk_spec {bi x : Nat} (hbi : 0 < bi) (hx : x < 2 ^ bi) :
    (zfill bi (bin_digits x)).length = bi ∧ val2 (zfill bi (bin_digits x)) = x :=
  ⟨zfill_length (bin_digits_length_le hbi hx), by rw [val2_zfill, val2_bin_digits]⟩

theorem mul_pow_add_div (A B n : Nat) (hn : 0 < n) (hB : B < n) : (A * n + B) / n = A := by
  rw [Nat.mul_comm, Nat.mul_add_div hn, Nat.div_eq_of_lt hB, Nat.add_zero]

theorem mul_pow_add_mod (A B n : Nat) (hB : B < n) : (A * n + B) % n = B := by
  rw [Nat.mul_comm, Nat.mul_add_mod, Nat.mod_eq_of_lt hB]

theorem val2_split (l : List Bool) (j : Nat) :
    val2 l = val2 (l.take j) * 2 ^ (l.length - j) + val2 (l.drop j) := by
  conv_lhs => rw [← List.take_append_drop j l]
  rw [val2_append, List.length_drop]

theorem val2_take (l : List Bool) (j : Nat) :
    val2 (l.take j) = val2 l / 2 ^ (l.length - j) := by
  have h1 := val2_lt (l.drop j)
  rw [List.length_drop] at h1
  rw [val2_split l j, mul_pow_add_div _ _ _ (Nat.two_pow_pos _) h1]

theorem val2_drop (l : List Bool) (j : Nat) :
    val2 (l.drop j) = val2 l % 2 ^ (l.length - j) := by
  have h1 := val2_lt (l.drop j)
  rw [List.length_drop] at h1
  rw [val2_split l j, mul_pow_add_mod _ _ _ h1]

theorem py_slice_eval {α : Type} (l : List α) (a b : Int) (ha : a < 0)
    (ha2 : 0 ≤ a + l.length) (hb : 0 ≤ b) (hb2 : b ≤ l.length) :
    py_slice l a b = (l.take b.toNat).drop (a + l.length).toNat := by
  simp only [py_slice]
  rw [if_pos ha, if_neg (Int.not_lt.mpr hb)]
  congr 2
  · exact max_eq_left ha2
  · exact congrArg Int.toNat (min_eq_left hb2)

theorem mapM_ok {ε α β : Type} (g : α → Except ε β) :
    ∀ (l : List α) (f : α → β), (∀ x ∈ l, g x = Except.ok (f x)) →
      l.mapM g = Except.ok (l.map f) := by
  intro l
  induction l with
  | nil => intro f _; rfl
  | cons x t iht =>
    intro f h
    rw [List.mapM_cons, h x (by simp), except_bind_ok,
      iht f (fun y hy => h y (by simp [hy])), except_bind_ok, List.map_cons]
    rfl

/-- The packed integer built by `from_iterable`'s bit-string pipeline. -/
theorem val2_chunks {bi : Nat} (hbi : 0 < bi) :
    ∀ (xs : List Nat), (∀ x ∈ xs, x < 2 ^ bi) →
      ((xs.map (fun x => zfill bi (bin_digits x))).reverse.flatten.length = xs.length * bi)
      ∧ val2 ((xs.map (fun x => zfill bi (bin_digits x))).reverse.flatten)
          = lanesN bi xs.length (fun i => xs.getD i 0) := by
  intro xs
  induction xs with
  | nil =>
    intro _
    exact ⟨by simp, by simp [val2, lanesN_zero]⟩
  | cons x t iht =>
    intro h
    have hx := chunk_spec hbi (h x (by simp))
    obtain ⟨ihlen, ihval⟩ := iht (fun y hy => h y (by simp [hy]))
    rw [List.map_cons, List.reverse_cons, List.flatten_append]
    simp only [List.flatten_cons, List.flatten_nil, List.append_nil]
    constructor
    · rw [List.length_append, ihlen, hx.1, List.length_cons]
      ring
    · rw [val2_append, ihval, hx.2, hx.1, List.length_cons, lanesN_succ']
      have hgd : ∀ i, (x :: t).getD (i + 1) 0 = t.getD i 0 := by
        intro i
        simp
      rw [lanesN_congr (fun i _ => hgd i)]
      simp only [List.getD_cons_zero]
      ring

theorem lanesN_extend {bi k n : Nat} (hk : k ≤ n) (f : Nat → Nat)
    (h0 : ∀ i, k ≤ i → f i = 0) :
    lanesN bi k f = lanesN bi n f := by
  unfold lanesN
  apply Finset.sum_subset (Finset.range_subset.mpr hk)
  intro x _ hnx
  have hxk : ¬ x < k := fun hc => hnx (Finset.mem_range.mpr hc)
  rw [h0 x (by omega), Nat.zero_mul]

/-- `from_iterable` on a nonempty list of in-range values that fits in the
shape: the resulting packed integer holds the values in the low lanes
and zero in the rest. -/
theorem from_iterable_eq_ok {s : S} (hs : s.valid) (xs : List Nat) (hne : xs ≠ [])
    (hlen : xs.length ≤ s.len) (hvals : ∀ x ∈ xs, x < 2 ^ s.bv) :
    A.from_iterable xs s = Except.ok ⟨lanesN s.bi s.len (fun i => xs.getD i 0), s⟩ := by
  have hbi := S.bi_pos hs
  have hvals' : ∀ x ∈ xs, x < 2 ^ s.bi := fun x hx =>
    Nat.lt_of_lt_of_le (hvals x hx) (two_pow_bv_le_bi hs)
  obtain ⟨hblen, hbval⟩ := val2_chunks hbi xs hvals'
  have hxs1 : 1 ≤ xs.length := by
    cases xs with
    | nil => exact absurd rfl hne
    | cons y t => simp
  have hgd : ∀ i, i < s.len → xs.getD i 0 < 2 ^ s.bv := by
    intro i _
    by_cases hik : i < xs.length
    · rw [List.getD_eq_getElem xs 0 hik]
      exact hvals _ (List.getElem_mem hik)
    · rw [List.getD_eq_default xs 0 (by omega)]
      exact Nat.two_pow_pos s.bv
  have hext : lanesN s.bi xs.length (fun i => xs.getD i 0)
      = lanesN s.bi s.len (fun i => xs.getD i 0) := by
    apply lanesN_extend hlen
    intro i hi
    exact List.getD_eq_default xs 0 hi
  unfold A.from_iterable
  have hbits : ((xs.map (fun x => zfill s.bi (bin_digits x))).reverse.flatten).isEmpty = false := by
    cases hb : (xs.map (fun x => zfill s.bi (bin_digits x))).reverse.flatten with
    | nil =>
      exfalso
      have h0 : xs.length * s.bi = 0 := by
        rw [← hblen, hb]
        rfl
      have hpos : 0 < xs.length * s.bi := Nat.mul_pos (by omega) hbi
      omega
    | cons c t => rfl
  have hint : int_base2 ((xs.map (fun x => zfill s.bi (bin_digits x))).reverse.flatten)
      = Except.ok (lanesN s.bi s.len (fun i => xs.getD i 0)) := by
    unfold int_base2
    rw [hbits]
    simp only [Bool.false_eq_true, if_false]
    rw [hbval, hext]
  show (int_base2 ((xs.map (fun x => zfill s.bi (bin_digits x))).reverse.flatten)
      >>= fun n => A.new ((n : Nat) : Int) s) = _
  rw [hint, except_bind_ok, new_natCast, if_pos (lanesN_and_mask_val_self hs _ hgd)]

/-- One lane read by `_get_values_by_indices`: the Python slice selects
exactly the lane's value field. -/
theorem get_lane_slice {a : A} (hs : a.s.valid) (ha : a.valid) {i : Nat} (hi : i < a.s.len) :
    int_base2 (py_slice (zfill (a.s.bi * a.s.len) (bin_digits a.data))
        (-(((i : Nat) : Int) + 1) * (a.s.bi : Int) + (a.s.bp : Int))
        (((zfill (a.s.bi * a.s.len) (bin_digits a.data)).length : Int)
          - ((i : Nat) : Int) * (a.s.bi : Int)))
      = Except.ok (laneVal a.s a.data i) := by
  have hbi := S.bi_pos hs
  have hbv := hs.1
  have hbp := hs.2
  have hbplt : a.s.bp < a.s.bi := by
    unfold S.bi
    omega
  have hbvbi : a.s.bv ≤ a.s.bi := Nat.le_of_lt (S.bv_lt_bi hs)
  have hd : a.data < 2 ^ (a.s.bi * a.s.len) := by
    rw [valid_eq_lanesN hs ha, Nat.mul_comm]
    exact lanesN_lt _ _ (fun j _ =>
      Nat.lt_of_lt_of_le (laneVal_lt a.s a.data j) (two_pow_bv_le_bi hs))
  have hnbits1 : 0 < a.s.bi * a.s.len := by
    have : 0 < a.s.len := by omega
    exact Nat.mul_pos hbi this
  have hblen : (zfill (a.s.bi * a.s.len) (bin_digits a.data)).length = a.s.bi * a.s.len :=
    zfill_length (bin_digits_length_le hnbits1 hd)
  have hbval : val2 (zfill (a.s.bi * a.s.len) (bin_digits a.data)) = a.data := by
    rw [val2_zfill, val2_bin_digits]
  set L : Nat := a.s.bi * a.s.len with hL
  set bits : List Bool := zfill (a.s.bi * a.s.len) (bin_digits a.data) with hbitsdef
  have hi1 : (i + 1) * a.s.bi ≤ L := by
    have : i + 1 ≤ a.s.len := by omega
    calc (i + 1) * a.s.bi ≤ a.s.len * a.s.bi := Nat.mul_le_mul_right _ this
      _ = L := by rw [hL, Nat.mul_comm]
  have hii : i * a.s.bi + a.s.bi = (i + 1) * a.s.bi := by ring
  have hc1 : -(((i : Nat) : Int) + 1) * (a.s.bi : Int) = -((((i + 1) * a.s.bi : Nat)) : Int) := by
    push_cast
    ring
  have hc2 : ((i : Nat) : Int) * (a.s.bi : Int) = (((i * a.s.bi : Nat)) : Int) := by
    push_cast
    ring
  have hslice0 := py_slice_eval bits
    (-(((i : Nat) : Int) + 1) * (a.s.bi : Int) + (a.s.bp : Int))
    ((bits.length : Int) - ((i : Nat) : Int) * (a.s.bi : Int))
    (by rw [hc1]; omega)
    (by rw [hc1, hblen]; omega)
    (by rw [hc2, hblen]; omega)
    (by rw [hc2, hblen]; omega)
  have htoN1 : ((-(((i : Nat) : Int) + 1) * (a.s.bi : Int) + (a.s.bp : Int))
      + (bits.length : Int)).toNat = L + a.s.bp - (i + 1) * a.s.bi := by
    rw [hc1, hblen]
    omega
  have htoN2 : (((bits.length : Int) - ((i : Nat) : Int) * (a.s.bi : Int))).toNat
      = L - i * a.s.bi := by
    rw [hc2, hblen]
    omega
  rw [htoN1, htoN2] at hslice0
  rw [hslice0]
  have htklen : (bits.take (L - i * a.s.bi)).length = L - i * a.s.bi := by
    rw [List.length_take, hblen]
    omega
  have htkval : val2 (bits.take (L - i * a.s.bi)) = a.data / 2 ^ (i * a.s.bi) := by
    rw [val2_take bits (L - i * a.s.bi), hbval, hblen]
    congr 2
    omega
  have hdroplen : L - i * a.s.bi - (L + a.s.bp - (i + 1) * a.s.bi) = a.s.bv := by
    unfold S.bi at *
    omega
  have hdropval : val2 ((bits.take (L - i * a.s.bi)).drop (L + a.s.bp - (i + 1) * a.s.bi))
      = laneVal a.s a.data i := by
    rw [val2_drop, htklen, htkval, hdroplen]
    rfl
  have hlen2 : ((bits.take (L - i * a.s.bi)).drop (L + a.s.bp - (i + 1) * a.s.bi)).length
      = a.s.bv := by
    rw [List.length_drop, htklen, hdroplen]
  unfold int_base2
  have hne2 : ((bits.take (L - i * a.s.bi)).drop (L + a.s.bp - (i + 1) * a.s.bi)).isEmpty
      = false := by
    cases hb : (bits.take (L - i * a.s.bi)).drop (L + a.s.bp - (i + 1) * a.s.bi) with
    | nil =>
      rw [hb] at hlen2
      simp at hlen2
      omega
    | cons c t => rfl
  rw [hne2]
  simp only [Bool.false_eq_true, if_false]
  rw [hdropval]

/-- Iteration of a valid array yields its lane values in lane order. -/
theorem iter_eq_ok {a : A} (hs : a.s.valid) (ha : a.valid) :
    A.iter a = Except.ok ((List.range a.s.len).map (fun i => laneVal a.s a.data i)) := by
  unfold A.iter A.get_values_by_indices
  show (List.range a.s.len).mapM (fun (i : Nat) =>
      int_base2 (py_slice (zfill (a.s.bi * a.s.len) (bin_digits a.data))
        (-(((i : Int)) + 1) * (a.s.bi : Int) + (a.s.bp : Int))
        (((zfill (a.s.bi * a.s.len) (bin_digits a.data)).length : Int)
          - ((i : Int)) * (a.s.bi : Int)))) = _
  apply mapM_ok
  intro i hi
  exact get_lane_slice hs ha (List.mem_range.mp hi)

theorem map_range_getD (xs : List Nat) (n : Nat) (hk : xs.length ≤ n) :
    (List.range n).map (fun i => xs.getD i 0) = xs ++ List.replicate (n - xs.length) 0 := by
  apply List.ext_getElem
  · simp
    omega
  · intro i h1 h2
    simp only [List.getElem_map, List.getElem_range]
    by_cases hik : i < xs.length
    · rw [List.getD_eq_getElem xs 0 hik, List.getElem_append_left hik]
    · rw [List.getD_eq_default xs 0 (by omega),
        List.getElem_append_right (by omega), List.getElem_replicate]

/-! ## Claims -/

/-- C1, counterexample: the claim says `lt` computes the unsigned `bv`-bit
less-than flag for every pair of valid same-shape arrays.  At shape
`S(len=1, bv=4, bp=4)` with lane values `8` and `0`, the code returns
flag `1` although `8 < 0` is false: `lt` extracts bit `bv-1` of the
masked difference (a sign-bit test), not the borrow flag. -/
theorem C1_counterexample :
    S.valid ⟨1, 4, 4⟩ ∧ A.valid ⟨8, ⟨1, 4, 4⟩⟩ ∧ A.valid ⟨0, ⟨1, 4, 4⟩⟩ ∧
    (A.lt ⟨8, ⟨1, 4, 4⟩⟩ (Sum.inl ⟨0, ⟨1, 4, 4⟩⟩)).map (fun c => laneVal ⟨1, 4, 4⟩ c.data 0)
      = Except.ok 1 ∧
    ¬ laneVal ⟨1, 4, 4⟩ 8 0 < laneVal ⟨1, 4, 4⟩ 0 0 := by
  decide

/-- C1 (amended): for valid arrays `a`, `b` of the same valid Shape all of
whose lane values are below `2^(bv-1)`, `lt(a, b)` returns an array of
the same Shape whose lane `i` holds `1` if `a`'s lane-`i` value is less
than `b`'s (unsigned) and `0` otherwise.  (In general the code computes
bit `bv-1` of `(v1 - v2) mod 2^bv`, which differs from unsigned
comparison once values reach `2^(bv-1)`.) -/
theorem C1_lt_small_unsigned {a b : A} (hs : a.s.valid) (hsh : a.s = b.s)
    (ha : a.valid) (hb : b.valid)
    (hsmall : ∀ i, i < a.s.len →
      laneVal a.s a.data i < 2 ^ (a.s.bv - 1) ∧ laneVal a.s b.data i < 2 ^ (a.s.bv - 1)) :
    ∃ c : A, A.lt a (Sum.inl b) = Except.ok c ∧ c.s = a.s ∧
      ∀ i, i < a.s.len →
        laneVal a.s c.data i
          = if laneVal a.s a.data i < laneVal a.s b.data i then 1 else 0 := by
  have h2bv : 1 < 2 ^ a.s.bv := Nat.one_lt_two_pow_iff.mpr (by
    have := hs.1
    omega)
  refine ⟨_, lt_eq_ok hs hsh ha hb, rfl, ?_⟩
  intro i hi
  rw [laneVal_lanesN hs _ (fun j hj => by split <;> omega) hi]
  exact lt_flag_eval hs.1 (hsmall i hi).1 (hsmall i hi).2

/-- C1, witness at the test-suite vectors (shape `S(5,4,4)`, all lane
values below `2^3`). -/
theorem C1_witness :
    ∃ c : A, A.lt ⟨0x0504030201, ⟨5, 4, 4⟩⟩ (Sum.inl ⟨0x0204020402, ⟨5, 4, 4⟩⟩)
        = Except.ok c ∧ c.s = ⟨5, 4, 4⟩ ∧
      ∀ i, i < (5 : Nat) →
        laneVal ⟨5, 4, 4⟩ c.data i
          = if laneVal ⟨5, 4, 4⟩ 0x0504030201 i < laneVal ⟨5, 4, 4⟩ 0x0204020402 i
            then 1 else 0 :=
  C1_lt_small_unsigned (by decide) rfl (by decide) (by decide) (by decide)

/-- C2, counterexample: at shape `S(len=1, bv=4, bp=4)` with lane values
`8` and `0`, both `lt` and `gt` report `1` (and `eq` reports `0`), so
"exactly one of lt, eq, gt is 1" fails. -/
theorem C2_counterexample :
    S.valid ⟨1, 4, 4⟩ ∧ A.valid ⟨8, ⟨1, 4, 4⟩⟩ ∧ A.valid ⟨0, ⟨1, 4, 4⟩⟩ ∧
    (A.lt ⟨8, ⟨1, 4, 4⟩⟩ (Sum.inl ⟨0, ⟨1, 4, 4⟩⟩)).map (fun c => laneVal ⟨1, 4, 4⟩ c.data 0)
      = Except.ok 1 ∧
    (A.gt ⟨8, ⟨1, 4, 4⟩⟩ (Sum.inl ⟨0, ⟨1, 4, 4⟩⟩)).map (fun c => laneVal ⟨1, 4, 4⟩ c.data 0)
      = Except.ok 1 ∧
    (A.eq ⟨8, ⟨1, 4, 4⟩⟩ (Sum.inl ⟨0, ⟨1, 4, 4⟩⟩)).map (fun c => laneVal ⟨1, 4, 4⟩ c.data 0)
      = Except.ok 0 := by
  decide

/-- C2 (amended): for every two valid arrays `a`, `b` of the same valid
Shape, `le(a,b)` is `lt(a,b) | eq(a,b)` and `ge(a,b)` is
`gt(a,b) | eq(a,b)` unconditionally; and whenever all lane values of
`a` and `b` are below `2^(bv-1)`, exactly one of `lt`, `eq`, `gt` holds
`1` per lane (the other two hold `0`).  (Without the small-values
restriction trichotomy fails: both `lt` and `gt` can report `1`.) -/
theorem C2_cmp_laws {a b : A} (hs : a.s.valid) (hsh : a.s = b.s)
    (ha : a.valid) (hb : b.valid) :
    ∃ l e g : A,
      A.lt a (Sum.inl b) = Except.ok l ∧
      A.eq a (Sum.inl b) = Except.ok e ∧
      A.gt a (Sum.inl b) = Except.ok g ∧
      A.le a (Sum.inl b) = A.or l (Sum.inl e) ∧
      A.ge a (Sum.inl b) = A.or g (Sum.inl e) ∧
      ((∀ i, i < a.s.len →
          laneVal a.s a.data i < 2 ^ (a.s.bv - 1) ∧
          laneVal a.s b.data i < 2 ^ (a.s.bv - 1)) →
        ∀ i, i < a.s.len →
          laneVal a.s l.data i + laneVal a.s e.data i + laneVal a.s g.data i = 1 ∧
          laneVal a.s l.data i ≤ 1 ∧ laneVal a.s e.data i ≤ 1 ∧ laneVal a.s g.data i ≤ 1) := by
  have h2bv : 1 < 2 ^ a.s.bv := Nat.one_lt_two_pow_iff.mpr (by
    have := hs.1
    omega)
  refine ⟨_, _, _, lt_eq_ok hs hsh ha hb, eq_eq_ok hs hsh ha hb, gt_eq_ok hs hsh ha hb,
    ?_, ?_, ?_⟩
  · unfold A.le
    rw [lt_eq_ok hs hsh ha hb, except_bind_ok, eq_eq_ok hs hsh ha hb, except_bind_ok]
  · unfold A.ge
    rw [gt_eq_ok hs hsh ha hb, except_bind_ok, eq_eq_ok hs hsh ha hb, except_bind_ok]
  · intro hsmall i hi
    have hlflag : (if 2 ^ (a.s.bv - 1) ≤
        (2 ^ a.s.bv + laneVal a.s a.data i - laneVal a.s b.data i) % 2 ^ a.s.bv
        then 1 else 0) = if laneVal a.s a.data i < laneVal a.s b.data i then (1:Nat) else 0 :=
      lt_flag_eval hs.1 (hsmall i hi).1 (hsmall i hi).2
    have hgflag : (if 2 ^ (a.s.bv - 1) ≤
        (2 ^ a.s.bv + laneVal a.s b.data i - laneVal a.s a.data i) % 2 ^ a.s.bv
        then 1 else 0) = if laneVal a.s b.data i < laneVal a.s a.data i then (1:Nat) else 0 :=
      lt_flag_eval hs.1 (hsmall i hi).2 (hsmall i hi).1
    rw [laneVal_lanesN hs _ (fun j hj => by split <;> omega) hi,
      laneVal_lanesN hs _ (fun j hj => by split <;> omega) hi,
      laneVal_lanesN hs _ (fun j hj => by split <;> omega) hi]
    rw [hlflag, hgflag]
    have htr := Nat.lt_trichotomy (laneVal a.s a.data i) (laneVal a.s b.data i)
    split_ifs <;> omega

/-- C2, witness at the test-suite vectors. -/
theorem C2_witness :
    ∃ l e g : A,
      A.lt ⟨0x0504030201, ⟨5, 4, 4⟩⟩ (Sum.inl ⟨0x0204020402, ⟨5, 4, 4⟩⟩) = Except.ok l ∧
      A.eq ⟨0x0504030201, ⟨5, 4, 4⟩⟩ (Sum.inl ⟨0x0204020402, ⟨5, 4, 4⟩⟩) = Except.ok e ∧
      A.gt ⟨0x0504030201, ⟨5, 4, 4⟩⟩ (Sum.inl ⟨0x0204020402, ⟨5, 4, 4⟩⟩) = Except.ok g ∧
      A.le ⟨0x0504030201, ⟨5, 4, 4⟩⟩ (Sum.inl ⟨0x0204020402, ⟨5, 4, 4⟩⟩) = A.or l (Sum.inl e) ∧
      A.ge ⟨0x0504030201, ⟨5, 4, 4⟩⟩ (Sum.inl ⟨0x0204020402, ⟨5, 4, 4⟩⟩) = A.or g (Sum.inl e) ∧
      ((∀ i, i < (5 : Nat) →
          laneVal ⟨5, 4, 4⟩ 0x0504030201 i < 2 ^ (3 : Nat) ∧
          laneVal ⟨5, 4, 4⟩ 0x0204020402 i < 2 ^ (3 : Nat)) →
        ∀ i, i < (5 : Nat) →
          laneVal ⟨5, 4, 4⟩ l.data i + laneVal ⟨5, 4, 4⟩ e.data i
            + laneVal ⟨5, 4, 4⟩ g.data i = 1 ∧
          laneVal ⟨5, 4, 4⟩ l.data i ≤ 1 ∧ laneVal ⟨5, 4, 4⟩ e.data i ≤ 1 ∧
          laneVal ⟨5, 4, 4⟩ g.data i ≤ 1) :=
  C2_cmp_laws (by decide) rfl (by decide) (by decide)

/-- C3: for valid arrays `a`, `b` of the same valid Shape, `a - b` is an
array of the same Shape whose lane-`i` value is
`(a_i - b_i) mod 2^bv` — the borrow of an underflowing lane is absorbed
by its own padding bit (the witness checks the spec's concrete example
`A([1,2,3,4,5], S(5,4,4)) - 3 = A([0x0e,0x0f,0,1,2])`, scalar path
included). -/
theorem C3_sub_lanewise {a b : A} (hs : a.s.valid) (hsh : a.s = b.s)
    (ha : a.valid) (hb : b.valid) :
    ∃ c : A, A.sub a (Sum.inl b) = Except.ok c ∧ c.s = a.s ∧
      ∀ i, i < a.s.len →
        (laneVal a.s c.data i : Int)
          = ((laneVal a.s a.data i : Int) - (laneVal a.s b.data i : Int))
              % (2 : Int) ^ a.s.bv := by
  refine ⟨_, sub_eq_ok hs hsh ha hb, rfl, ?_⟩
  intro i hi
  rw [laneVal_lanesN hs _ (fun j hj => Nat.mod_lt _ (Nat.two_pow_pos a.s.bv)) hi]
  have h2 := laneVal_lt a.s b.data i
  have hle : laneVal a.s b.data i ≤ 2 ^ a.s.bv + laneVal a.s a.data i := by omega
  push_cast [Nat.cast_sub hle]
  have heq : ((2 : Int) ^ a.s.bv + (laneVal a.s a.data i : Int) - (laneVal a.s b.data i : Int))
      = ((laneVal a.s a.data i : Int) - (laneVal a.s b.data i : Int))
        + (2 : Int) ^ a.s.bv * 1 := by ring
  rw [heq, Int.add_mul_emod_self_left]

/-- C3, witness: the spec's subtraction example, both through the scalar
broadcast path (`- 3`) and through the array path. -/
theorem C3_witness :
    A.sub ⟨0x0504030201, ⟨5, 4, 4⟩⟩ (Sum.inr 3) = Except.ok ⟨0x0201000f0e, ⟨5, 4, 4⟩⟩ ∧
    (∃ c : A, A.sub ⟨0x0504030201, ⟨5, 4, 4⟩⟩ (Sum.inl ⟨0x0303030303, ⟨5, 4, 4⟩⟩)
        = Except.ok c ∧ c.s = ⟨5, 4, 4⟩ ∧
      ∀ i, i < (5 : Nat) →
        (laneVal ⟨5, 4, 4⟩ c.data i : Int)
          = ((laneVal ⟨5, 4, 4⟩ 0x0504030201 i : Int) - (laneVal ⟨5, 4, 4⟩ 0x0303030303 i : Int))
              % (2 : Int) ^ (4 : Nat)) :=
  ⟨by decide, C3_sub_lanewise (by decide) rfl (by decide) (by decide)⟩

/-- C4: the claim (and spec) say `maxval = 2^bv - 1`, the largest value of
one lane's value field; the code returns `mask(bi) = 2^(bv+bp) - 1`
instead (at `S(5,4,4)`: `255`, not `15`).  The code's own comments call
`mask(bv)` the lane `MAXVAL` ("array of MAXVAL" for `mask_val`), so the
property, not the spec, is the slip. -/
theorem C4_maxval_code_eval :
    S.valid ⟨5, 4, 4⟩ ∧ S.maxval ⟨5, 4, 4⟩ = 255 ∧ 255 ≠ 2 ^ (4 : Nat) - 1 := by
  decide

/-- C5, counterexample: `neg` does not mask its result, so a zero lane
produces `2^bv` in that lane (padding bit set) and the constructor
invariant check rejects it: `-A([0], S(1,1,1))` raises
`UnclearedPadding` instead of returning the claimed array with lane
value `(2^bv - 0) mod 2^bv = 0`. -/
theorem C5_counterexample :
    S.valid ⟨1, 1, 1⟩ ∧ A.valid ⟨0, ⟨1, 1, 1⟩⟩ ∧
    A.neg ⟨0, ⟨1, 1, 1⟩⟩ = Except.error Err.unclearedPadding := by
  decide

/-- C5 (amended): for a valid array of a valid Shape all of whose lane
values are nonzero, `neg` returns an array of the same Shape whose
lane-`i` value is `(2^bv - v) mod 2^bv` (`= 2^bv - v` here); on an
array with a zero lane the constructor check fails instead. -/
theorem C5_neg_lanewise {a : A} (hs : a.s.valid) (ha : a.valid)
    (hnz : ∀ i, i < a.s.len → laneVal a.s a.data i ≠ 0) :
    ∃ c : A, A.neg a = Except.ok c ∧ c.s = a.s ∧
      ∀ i, i < a.s.len →
        laneVal a.s c.data i = (2 ^ a.s.bv - laneVal a.s a.data i) % 2 ^ a.s.bv := by
  refine ⟨_, neg_eq_ok hs ha hnz, rfl, ?_⟩
  intro i hi
  have h1 := laneVal_lt a.s a.data i
  have h2 := hnz i hi
  rw [laneVal_lanesN hs _ (fun j hj => by
    have h1' := laneVal_lt a.s a.data j
    have h2' := hnz j hj
    omega) hi]
  exact (Nat.mod_eq_of_lt (by omega)).symm

/-- C5, witness: the test-suite negation vector (all lanes nonzero). -/
theorem C5_witness :
    ∃ c : A, A.neg ⟨0x0504030201, ⟨5, 4, 4⟩⟩ = Except.ok c ∧ c.s = ⟨5, 4, 4⟩ ∧
      ∀ i, i < (5 : Nat) →
        laneVal ⟨5, 4, 4⟩ c.data i
          = (2 ^ (4 : Nat) - laneVal ⟨5, 4, 4⟩ 0x0504030201 i) % 2 ^ (4 : Nat) :=
  C5_neg_lanewise (by decide) (by decide) (by decide)

/-- C6: for every valid array of a valid Shape, `is_true` returns an array
of the same Shape whose lane-`i` value is `1` exactly when the lane-`i`
value of the input is nonzero, and `0` when it is zero. -/
theorem C6_is_true_boolean {a : A} (hs : a.s.valid) (ha : a.valid) :
    ∃ c : A, A.is_true a = Except.ok c ∧ c.s = a.s ∧
      ∀ i, i < a.s.len →
        laneVal a.s c.data i = if laneVal a.s a.data i = 0 then 0 else 1 := by
  have h2bv : 1 < 2 ^ a.s.bv := Nat.one_lt_two_pow_iff.mpr (by
    have := hs.1
    omega)
  refine ⟨_, is_true_eq_ok hs ha, rfl, ?_⟩
  intro i hi
  rw [laneVal_lanesN hs _ (fun j hj => by split <;> omega) hi]

/-- C6, witness: the test-suite `is_true` vector. -/
theorem C6_witness :
    ∃ c : A, A.is_true ⟨0x0f00030201, ⟨5, 4, 4⟩⟩ = Except.ok c ∧ c.s = ⟨5, 4, 4⟩ ∧
      ∀ i, i < (5 : Nat) →
        laneVal ⟨5, 4, 4⟩ c.data i = if laneVal ⟨5, 4, 4⟩ 0x0f00030201 i = 0 then 0 else 1 :=
  C6_is_true_boolean (by decide) (by decide)

/-- C7: the claim (from the spec) requires `a[i]` to fail with
`IndexOutOfRange` for `i` outside `[0, len)`; the code performs no
bounds check (its own TODO records the omission) and silently returns
`0` for `i = len`: evaluated at `a = A(1, S(len=1, bv=4, bp=4))`,
`a[1]` returns `0`.  The in-range behaviour
`(data >> (i*bi)) & mask(bv)` is what `getitem` computes. -/
theorem C7_getitem_unchecked_eval :
    S.valid ⟨1, 4, 4⟩ ∧ A.valid ⟨1, ⟨1, 4, 4⟩⟩ ∧ A.len ⟨1, ⟨1, 4, 4⟩⟩ = 1 ∧
    A.getitem ⟨1, ⟨1, 4, 4⟩⟩ 1 = Except.ok 0 ∧
    A.getitem ⟨1, ⟨1, 4, 4⟩⟩ 0 = Except.ok ((1 >>> (0 * 8)) &&& mask 4) := by
  decide

/-- C8, counterexample: for the valid empty Shape `S(len=0, bv=1, bp=1)`
and `value = 2 ≥ 2^bv`, `from_const` succeeds (the replicated data is
`0`), so the claim "fails for every valid Shape" is false for empty
shapes. -/
theorem C8_counterexample :
    S.valid ⟨0, 1, 1⟩ ∧ (2 : Int) ^ ((⟨0, 1, 1⟩ : S).bv) ≤ 2 ∧
    A.from_const 2 ⟨0, 1, 1⟩ = Except.ok ⟨0, ⟨0, 1, 1⟩⟩ := by
  decide

/-- C8 (amended): for every valid nonempty Shape (`len ≥ 1`) and every
`value ≥ 2^bv`, `from_const(value, s)` fails: the replicated value
overflows into padding bits and the constructor invariant check rejects
it with `UnclearedPadding`. -/
theorem C8_from_const_overflow {s : S} (hs : s.valid) (hlen : 0 < s.len)
    {val : Int} (hval : (2 : Int) ^ s.bv ≤ val) :
    A.from_const val s = Except.error Err.unclearedPadding := by
  have hpow : (0 : Int) < 2 ^ s.bv := by positivity
  have hval0 : 0 ≤ val := by omega
  unfold A.from_const
  rw [if_neg (by omega)]
  obtain ⟨v, rfl⟩ : ∃ v : Nat, val = (v : Int) := ⟨val.toNat, (Int.toNat_of_nonneg hval0).symm⟩
  have hv : 2 ^ s.bv ≤ v := by exact_mod_cast hval
  have hcast : ((s.mask_array_val : Int) * (v : Int)) = ((s.mask_array_val * v : Nat) : Int) := by
    push_cast
    ring
  rw [hcast, new_natCast]
  have hmavpos : 0 < s.mask_array_val := mask_array_pos hlen (S.bi_pos hs)
  have hbig : s.mask_val < s.mask_array_val * v := by
    unfold S.mask_val
    calc s.mask_array_val * Simd.mask s.bv
        < s.mask_array_val * 2 ^ s.bv :=
          mul_lt_mul_of_pos_left (mask_lt_two_pow s.bv) hmavpos
      _ ≤ s.mask_array_val * v := Nat.mul_le_mul_left _ hv
  rw [if_neg]
  intro hcontra
  have hle := Nat.and_le_right (n := s.mask_array_val * v) (m := s.mask_val)
  omega

/-- C8, witness: `from_const(2, S(1,1,1))` is rejected. -/
theorem C8_witness :
    (0 : Nat) < (⟨1, 1, 1⟩ : S).len ∧ (2 : Int) ^ ((⟨1, 1, 1⟩ : S).bv) ≤ 2 ∧
    A.from_const 2 ⟨1, 1, 1⟩ = Except.error Err.unclearedPadding :=
  ⟨by decide, by decide, C8_from_const_overflow (by decide) (by decide) (by decide)⟩

/-- Iterating the array packed from `xs` (low lanes) yields `xs` followed
by zeros for the remaining lanes. -/
theorem iter_lanesN_getD {s : S} (hs : s.valid) (xs : List Nat)
    (hlen : xs.length ≤ s.len) (hvals : ∀ x ∈ xs, x < 2 ^ s.bv) :
    A.iter ⟨lanesN s.bi s.len (fun i => xs.getD i 0), s⟩
      = Except.ok (xs ++ List.replicate (s.len - xs.length) 0) := by
  have hgd : ∀ i, i < s.len → xs.getD i 0 < 2 ^ s.bv := by
    intro i _
    by_cases hik : i < xs.length
    · rw [List.getD_eq_getElem xs 0 hik]
      exact hvals _ (List.getElem_mem hik)
    · rw [List.getD_eq_default xs 0 (by omega)]
      exact Nat.two_pow_pos s.bv
  have hval : (A.mk (lanesN s.bi s.len (fun i => xs.getD i 0)) s).valid :=
    lanesN_and_mask_val_self hs _ hgd
  rw [iter_eq_ok hs hval]
  congr 1
  calc (List.range s.len).map
        (fun i => laneVal s (lanesN s.bi s.len (fun j => xs.getD j 0)) i)
      = (List.range s.len).map (fun i => xs.getD i 0) :=
        List.map_congr_left (fun i hi => laneVal_lanesN hs _ hgd (List.mem_range.mp hi))
    _ = xs ++ List.replicate (s.len - xs.length) 0 := map_range_getD xs s.len hlen

/-- C9, counterexample: the claim quantifies over every valid Shape, but
for the valid empty Shape `S(len=0, bv=1, bp=1)` and `xs = []` (the only
list of length `s.len`), `from_iterable` joins zero chunks into the
empty bit string and `int('', 2)` raises `ValueError`, so no array is
returned at all. -/
theorem C9_counterexample :
    S.valid ⟨0, 1, 1⟩ ∧ ([] : List Nat).length = (⟨0, 1, 1⟩ : S).len ∧
    A.from_iterable [] ⟨0, 1, 1⟩ = Except.error Err.invalidLiteral := by
  decide

/-- C9 (amended): for every valid Shape with `len ≥ 1` and every list `xs`
of exactly `s.len` integers each in `[0, 2^bv - 1]`, iterating the array
built by `from_iterable(xs, s)` yields back exactly `xs`, in order
(first element in the least-significant lane, returned first).  (For the
empty shape `from_iterable` raises on `int('', 2)` instead.) -/
theorem C9_roundtrip {s : S} (hs : s.valid) (hlen : 0 < s.len) (xs : List Nat)
    (hxs : xs.length = s.len) (hvals : ∀ x ∈ xs, x < 2 ^ s.bv) :
    ∃ a : A, A.from_iterable xs s = Except.ok a ∧ A.iter a = Except.ok xs := by
  have hne : xs ≠ [] := by
    intro h
    rw [h] at hxs
    simp at hxs
    omega
  refine ⟨_, from_iterable_eq_ok hs xs hne (by omega) hvals, ?_⟩
  rw [iter_lanesN_getD hs xs (by omega) hvals]
  have h0 : s.len - xs.length = 0 := by omega
  rw [h0, List.replicate_zero, List.append_nil]

/-- C9, witness: round-trip of `[1, 2, 3]` through shape `S(3, 2, 2)`. -/
theorem C9_witness :
    ∃ a : A, A.from_iterable [1, 2, 3] ⟨3, 2, 2⟩ = Except.ok a ∧
      A.iter a = Except.ok [1, 2, 3] :=
  C9_roundtrip (by decide) (by decide) [1, 2, 3] (by decide) (by decide)

/-- C10, counterexample: the claim says `from_iterable` succeeds for every
list shorter than `s.len`, including the empty list; but
`from_iterable([], s)` reaches `int('', 2)`, which raises `ValueError`
(`invalid literal`), so the empty list is not accepted. -/
theorem C10_counterexample :
    S.valid ⟨2, 1, 1⟩ ∧ ([] : List Nat).length < (⟨2, 1, 1⟩ : S).len ∧
    A.from_iterable [] ⟨2, 1, 1⟩ = Except.error Err.invalidLiteral := by
  decide

/-- C10 (amended): `from_iterable` performs no length check: for every
valid Shape and every nonempty list `xs` of integers in
`[0, 2^bv - 1]` with `length < s.len`, it succeeds, the result still
reports length `s.len`, lanes `0..length-1` hold the given values in
order and the remaining higher lanes hold `0`.  (The empty list fails
on `int('', 2)`.) -/
theorem C10_short_list {s : S} (hs : s.valid) (xs : List Nat) (hne : xs ≠ [])
    (hlt : xs.length < s.len) (hvals : ∀ x ∈ xs, x < 2 ^ s.bv) :
    ∃ a : A, A.from_iterable xs s = Except.ok a ∧ A.len a = s.len ∧
      A.iter a = Except.ok (xs ++ List.replicate (s.len - xs.length) 0) := by
  refine ⟨_, from_iterable_eq_ok hs xs hne (by omega) hvals, rfl, ?_⟩
  exact iter_lanesN_getD hs xs (by omega) hvals

/-- C10, witness: `[1]` into shape `S(2, 1, 1)` reads back as `[1, 0]`. -/
theorem C10_witness :
    ∃ a : A, A.from_iterable [1] ⟨2, 1, 1⟩ = Except.ok a ∧ A.len a = 2 ∧
      A.iter a = Except.ok ([1] ++ List.replicate (2 - 1) 0) :=
  C10_short_list (by decide) [1] (by decide) (by decide) (by decide)

end Simd
